import Mathlib

set_option maxHeartbeats 1000000

/-! Shallow embedding of the quantumsolver repository: the Simon generator and
brute-force solver, the classical and quantum Bernstein-Vazirani solvers, the
Deutsch-Jozsa solver, and the two classical Deutsch solvers, together with
proofs of the specification's testable properties. -/

/-- Fixed-width big-endian binary rendering: the low `n` bits of `s`, most
significant first. -/
def binRender : Nat → Nat → List Char
  | 0, _ => []
  | n+1, s => binRender n (s / 2) ++ [if s % 2 = 1 then '1' else '0']

/-- Fuel-based binary logarithm; agrees with `Nat.log2` once the fuel covers
the argument, and is computable by kernel reduction. -/
def log2fuel : Nat → Nat → Nat
  | 0, _ => 0
  | fuel+1, n => if n ≥ 2 then log2fuel fuel (n / 2) + 1 else 0

/-- Kernel-computable binary logarithm (models `int(math.log2(n))`, which is
exact on powers of two). -/
def log2c (n : Nat) : Nat := log2fuel n n

/-- Fuel-based population count; correct once the fuel covers the bit width
of the argument. -/
def bitcountAux : Nat → Nat → Nat
  | 0, _ => 0
  | w+1, n => bitcountAux w (n / 2) + n % 2

/-- Number of 1 bits in the binary representation of a natural number
(models Python `int.bit_count()`). -/
def bitcount (n : Nat) : Nat := bitcountAux n n

/-- Parse a binary string into a natural number (models Python `int(s, 2)` on
strings of `0`/`1` characters). -/
def binToNat (s : String) : Nat :=
  s.data.foldl (fun acc c => 2 * acc + (if c = '1' then 1 else 0)) 0

/-- The binary digit characters of `s`, most significant first (models the
Python format `f"\x7bs:b\x7d"`: `log2c s + 1` significant digits for a
positive number, the single digit `0` for zero). -/
def natToBin (s : Nat) : List Char :=
  if s = 0 then ['0'] else binRender (log2c s + 1) s

/-- Left-pad a character list with zeros to width `w` (models Python
`str.zfill`). -/
def zfill (l : List Char) (w : Nat) : List Char :=
  List.replicate (w - l.length) '0' ++ l

/-- Python `f"\x7bs:b\x7d".zfill(nbits)`: the binary rendering of `s`,
left-zero-padded to width `nbits`. -/
def binStringZfill (s nbits : Nat) : String :=
  ⟨zfill (natToBin s) nbits⟩

/-- `s` consists only of the characters `0` and `1`. -/
def IsBinStr (s : String) : Prop :=
  ∀ c ∈ s.data, c = '0' ∨ c = '1'

instance (s : String) : Decidable (IsBinStr s) := by
  unfold IsBinStr; infer_instance

namespace Simon

/-- Is n a power of 2? If so, which one? (from
`simon_generator.power_of_two_info`; the `n ≤ 0` guard of the Python source
collapses to `n = 0` on naturals). -/
def power_of_two_info (n : Nat) : Bool × Option Nat :=
  if n = 0 then (false, none)
  else if n &&& (n - 1) = 0 then (true, some (log2c n))
  else (false, none)

/-- Append index `s` to the group of key `y`, inserting a new key at the end
if absent (models `fmap[y].append(s)` on a Python insertion-ordered dict). -/
def insertEntry : List (Nat × List Nat) → Nat → Nat → List (Nat × List Nat)
  | [], y, s => [(y, [s])]
  | (k, g) :: rest, y, s =>
    if k = y then (k, g ++ [s]) :: rest else (k, g) :: insertEntry rest y s

/-- The inverse mapping from output value to the list of inputs producing it,
in key-insertion order (the `fmap` built by `brute_force_simon` over inputs
`0, 1, ..., bound - 1`). -/
def buildFmap (bound : Nat) (farray : List Nat) : List (Nat × List Nat) :=
  (List.range bound).foldl (fun m s => insertEntry m (farray.getD s 0) s) []

/-- The candidate-collecting loop of `brute_force_simon`: fails as soon as a
group's size is not exactly 2, otherwise accumulates the distinct XOR
candidates (a Python set, modelled as a dedup-append list). -/
def checkGroups : List (List Nat) → List Nat → Option (List Nat)
  | [], acc => some acc
  | g :: rest, acc =>
    if g.length ≠ 2 then none
    else
      checkGroups rest
        (if (g.getD 0 0 ^^^ g.getD 1 0) ∈ acc then acc
         else acc ++ [g.getD 0 0 ^^^ g.getD 1 0])

/-- The body of `brute_force_simon` after the power-of-two shape check: the
one-to-one shortcut, the group-size check and the candidate count. -/
def secretFromFmap (nbits : Nat) (farray : List Nat) : String :=
  if (buildFmap (2 ^ nbits) farray).length = 2 ^ nbits then
    ⟨zfill [] nbits⟩
  else
    match checkGroups ((buildFmap (2 ^ nbits) farray).map Prod.snd) [] with
    | none => "invalid f: more than two inputs map to the same output"
    | some candidates =>
      if candidates.length ≠ 1 then
        "invalid f: inconsistent secret strings found"
      else binStringZfill (candidates.headD 0) nbits

/-- Brute-force search to find the secret string s given f (from
`simon_generator.brute_force_simon`). -/
def brute_force_simon (farray : List Nat) : String :=
  if (power_of_two_info farray.length).1 = false then
    "length of function is not power of 2 " ++ toString farray.length
  else
    secretFromFmap ((power_of_two_info farray.length).2.getD 0) farray

/-- The JSON schema produced by `simon_generator.generate`. -/
structure SimonInstance where
  nbits : Nat
  mbits : Nat
  f : List Nat
  s : String

/-- One step of the generator loop: pop a fresh value off the end of the
shuffled codomain list and assign it to both `f[i]` and `f[i XOR sint]`. -/
def genStep (sint : Nat) (st : List Nat × List Nat) (i : Nat) :
    List Nat × List Nat :=
  let v := st.1.getLast?.getD 0
  (st.1.dropLast, (st.2.set i v).set (i ^^^ sint) v)

/-- Generates a Simon problem instance with the given secret string s (from
`simon_generator.generate`); `mfield` is the outcome of the random shuffle of
`list(range(2 ** mbits))`, and the `None`-initialized Python list is modelled
with default value 0 (every cell is overwritten during the loop). -/
def generate (nbits mbits : Nat) (s : String) (mfield : List Nat) :
    SimonInstance :=
  let sint := binToNat s
  let res :=
    (List.range (2 ^ nbits)).foldl (genStep sint)
      (mfield, List.replicate (2 ^ nbits) 0)
  ⟨nbits, mbits, res.2, s⟩

end Simon

namespace BVClassical

/-- Classical Bernstein-Vazirani solver (from
`bernstein_vazirani_classical.solve`): converts the entries with `bool`,
reads the oracle only at the unit-weight inputs `1 <<< p` for `p < nbits`
(out-of-range reads return `false`, as in the source) and ORs those powers
into the answer, rendered as a left-zero-padded binary string. -/
def solve (nbits : Nat) (fdata : List Nat) : String :=
  let fbits := fdata.map (fun x => x != 0)
  let f := fun (x : Nat) => if x ≥ fbits.length then false else fbits.getD x false
  let s := (List.range nbits).foldl
    (fun s p => if f (1 <<< p) then s ||| (1 <<< p) else s) 0
  binStringZfill s nbits

end BVClassical

namespace BVQuantum

/-- The two accepted input encodings of `bernstein_vazirani_quantum.solve`:
a bare list of bits, or a dict carrying `nbits` and the bit list `f`. -/
inductive Input where
  | list (data : List Nat)
  | dict (nbits : Nat) (f : List Nat)

/-- The oracle reads performed by `bernstein_vazirani_quantum.solve`: the
`bit_string` it feeds to `bv_query`, most significant bit first (the reversed
join of the per-bit characters, with out-of-range reads returning `false`). -/
def bitString (nbits : Nat) (fbits : List Bool) : List Char :=
  ((List.range nbits).map (fun i =>
    if (if 1 <<< i ≥ fbits.length then false else fbits.getD (1 <<< i) false)
    then '1' else '0')).reverse

/-- Quantum Bernstein-Vazirani solver (from
`bernstein_vazirani_quantum.solve`).  The external Aer simulation of the
compiled circuit on the `bv_query(bit_string)` oracle is deterministic and
measures exactly `bit_string`, so the measured answer is modelled as
`bit_string` itself. -/
def solve : Input → String
  | .list data =>
    let fbits := data.map (fun x => x != 0)
    let info := Simon.power_of_two_info fbits.length
    if info.1 = false then "function length is not power of 2"
    else ⟨bitString (info.2.getD 0) fbits⟩
  | .dict nbits f =>
    let fbits := f.map (fun x => x != 0)
    if 2 ^ nbits ≠ fbits.length then
      "invalid function length " ++ toString fbits.length ++ " != 2^nbits "
        ++ toString (2 ^ nbits)
    else ⟨bitString nbits fbits⟩

/-- The generator from `bernstein_vazirani_quantum.generate`: returns the
triple of `nbits`, the hidden string, and the set of inputs on which the
inner-product oracle is true — the `x` in `[0, 2^nbits)` with odd
`popcount(sint AND x)` (the Python set is modelled as the increasing list). -/
def generate (nbits : Nat) (s : String) : Nat × String × List Nat :=
  (nbits, s,
    (List.range (2 ^ nbits)).filter
      (fun i => bitcount (binToNat s &&& i) % 2 = 1))

end BVQuantum

namespace DJ

/-- The effective boolean function implemented by the oracle circuit that
`deutsch_jozsa_quantum.solve` builds: `dj_constant` for the two constant
branches, `dj_balanced` otherwise. -/
inductive Oracle where
  | const (output : Bool)
  | balanced (fbits : List Bool)

/-- The truth function of an oracle circuit (`dj_balanced` flips the ancilla
exactly on the states whose table entry is true; out-of-range states are
untouched). -/
def Oracle.eval : Oracle → Nat → Bool
  | .const b, _ => b
  | .balanced fb, x => fb.getD x false

/-- Oracle selection in `deutsch_jozsa_quantum.solve`: an all-false table
gives the constant-0 circuit, an all-true table the constant-1 circuit, and
anything else the `dj_balanced` circuit for the table (`sum(fbits)` is the
number of true entries). -/
def selectOracle (fbits : List Bool) : Oracle :=
  if fbits.count true = 0 then .const false
  else if fbits.length = fbits.count true then .const true
  else .balanced fbits

/-- `2^n` times the amplitude with which the compiled Deutsch-Jozsa circuit
on oracle `g` measures the basis state `z`.  Models the external Aer
simulator: a single-shot run can return outcome `z` exactly when this sum is
nonzero. -/
def djAmp (n : Nat) (g : Nat → Bool) (z : Nat) : Int :=
  ((List.range (2 ^ n)).map (fun x =>
    (if g x then (-1 : Int) else 1) *
    (if bitcount (x &&& z) % 2 = 1 then (-1 : Int) else 1))).sum

/-- Decoding of the measured memory string in `dj_algorithm`: "balanced" iff
the measured `nbits`-wide register contains a 1 bit. -/
def decode (nbits z : Nat) : String :=
  if '1' ∈ (binStringZfill z nbits).data then "balanced" else "constant"

/-- Deutsch-Jozsa solver (from `deutsch_jozsa_quantum.solve`), dict-style
input; `z` is the basis state measured by the external simulator when running
the compiled circuit (a possible outcome satisfies
`djAmp nbits (selectOracle fbits).eval z ≠ 0`). -/
def solve (nbits : Nat) (f : List Nat) (z : Nat) : String :=
  let fbits := f.map (fun x => x != 0)
  if 2 ^ nbits ≠ fbits.length then
    "invalid function length " ++ toString fbits.length ++ " != 2^nbits "
      ++ toString (2 ^ nbits)
  else decode nbits z

end DJ

namespace DeutschClassical

/-- Classical Deutsch solver (from `deutsch_classical.solve`); the unguarded
Python list indexing `data[0]` / `data[1]` raises `IndexError` on inputs
shorter than 2, modelled by `Option.none`. -/
def solve (data : List Bool) : Option String := do
  let fFalse ← data[0]?
  let fTrue ← data[1]?
  pure (if fFalse = fTrue then "constant" else "balanced")

end DeutschClassical

namespace DeutschClassicalB

/-- The second classical Deutsch solver (from `DeutschClassical.solve`),
comparing the two raw entries; indexing is again unguarded. -/
def solve (data : List Bool) : Option String := do
  let a ← data[0]?
  let b ← data[1]?
  pure (if a = b then "constant" else "balanced")

end DeutschClassicalB

/-! ### Binary rendering and parsing lemmas -/

theorem log2fuel_eq_log2 : ∀ fuel n, n ≤ fuel → log2fuel fuel n = Nat.log2 n := by
  intro fuel
  induction fuel with
  | zero =>
    intro n hn
    have hn0 : n = 0 := Nat.le_zero.mp hn
    subst hn0
    simp [log2fuel, Nat.log2_zero]
  | succ fuel ih =>
    intro n hn
    show (if n ≥ 2 then log2fuel fuel (n / 2) + 1 else 0) = Nat.log2 n
    rw [Nat.log2]
    by_cases h : n ≥ 2
    · rw [if_pos h, if_pos h, ih (n / 2) (by omega)]
    · rw [if_neg h, if_neg h]

theorem log2c_eq (n : Nat) : log2c n = Nat.log2 n :=
  log2fuel_eq_log2 n n (Nat.le_refl n)

theorem binRender_length : ∀ n s, (binRender n s).length = n := by
  intro n
  induction n with
  | zero => intro s; rfl
  | succ n ih => intro s; simp [binRender, ih]

theorem binRender_zero : ∀ n, binRender n 0 = List.replicate n '0' := by
  intro n
  induction n with
  | zero => rfl
  | succ n ih =>
    show binRender n (0 / 2) ++ [if (0 : Nat) % 2 = 1 then '1' else '0'] = _
    rw [Nat.zero_div, ih]
    simp [List.replicate_succ' (n := n)]

theorem binRender_cons_zero : ∀ n s, s < 2 ^ n → binRender (n + 1) s = '0' :: binRender n s := by
  intro n
  induction n with
  | zero =>
    intro s hs
    have : s = 0 := by omega
    subst this
    rfl
  | succ n ih =>
    intro s hs
    have hdiv : s / 2 < 2 ^ n := by
      have h2 : (2 : Nat) ^ (n + 1) = 2 ^ n * 2 := by ring
      omega
    show binRender (n + 1) (s / 2) ++ _ = '0' :: (binRender n (s / 2) ++ _)
    rw [ih (s / 2) hdiv]
    rfl

theorem binRender_pad : ∀ j k s, s < 2 ^ k →
    binRender (j + k) s = List.replicate j '0' ++ binRender k s := by
  intro j
  induction j with
  | zero => intro k s _; simp
  | succ j ih =>
    intro k s hs
    have hjk : j + 1 + k = (j + k) + 1 := by omega
    rw [hjk, binRender_cons_zero (j + k) s
      (Nat.lt_of_lt_of_le hs (Nat.pow_le_pow_right (by omega) (by omega))),
      ih k s hs]
    rfl

theorem zfill_natToBin (n s : Nat) (hn : 1 ≤ n) (hs : s < 2 ^ n) :
    zfill (natToBin s) n = binRender n s := by
  by_cases h0 : s = 0
  · subst h0
    unfold zfill natToBin
    rw [if_pos rfl, binRender_zero]
    have h1 : (['0'] : List Char).length = 1 := rfl
    rw [h1]
    have hsplit : n = (n - 1) + 1 := by omega
    conv_rhs => rw [hsplit]
    rw [List.replicate_succ']
  · unfold zfill natToBin
    rw [if_neg h0, binRender_length]
    have hlog : log2c s + 1 ≤ n := by
      have := (Nat.log2_lt h0).mpr hs
      rw [log2c_eq]; omega
    have hself : s < 2 ^ (log2c s + 1) := by rw [log2c_eq]; exact Nat.lt_log2_self
    have hsplit : n = (n - (log2c s + 1)) + (log2c s + 1) := by omega
    conv_rhs => rw [hsplit]
    rw [binRender_pad _ _ _ hself]

theorem binStringZfill_eq_binRender (s n : Nat) (hn : 1 ≤ n) (hs : s < 2 ^ n) :
    binStringZfill s n = ⟨binRender n s⟩ := by
  show String.mk (zfill (natToBin s) n) = _
  rw [zfill_natToBin n s hn hs]

theorem binRender_getD : ∀ n s i, i < n →
    (binRender n s).getD (n - 1 - i) ' ' = (if s.testBit i then '1' else '0') := by
  intro n
  induction n with
  | zero => intro s i hi; omega
  | succ n ih =>
    intro s i hi
    show (binRender n (s / 2) ++ [if s % 2 = 1 then '1' else '0']).getD (n - i) ' ' = _
    cases i with
    | zero =>
      have hlen : (binRender n (s / 2)).length = n := binRender_length n (s / 2)
      have hidx : n - 0 = n := by omega
      rw [hidx, List.getD_eq_getElem?_getD,
        List.getElem?_append_right (Nat.le_of_eq hlen), hlen, Nat.sub_self,
        Nat.testBit_zero]
      by_cases hp : s % 2 = 1
      · simp [hp]
      · simp [hp]
    | succ i' =>
      have hi' : i' < n := by omega
      have hidx : n - (i' + 1) = n - 1 - i' := by omega
      have hlt : n - 1 - i' < (binRender n (s / 2)).length := by
        rw [binRender_length]; omega
      rw [hidx, List.getD_eq_getElem?_getD, List.getElem?_append_left hlt,
        ← List.getD_eq_getElem?_getD, ih (s / 2) i' hi', Nat.testBit_add_one]

theorem mem_binRender_one : ∀ n z, z < 2 ^ n → ('1' ∈ binRender n z ↔ z ≠ 0) := by
  intro n
  induction n with
  | zero =>
    intro z hz
    have : z = 0 := by omega
    subst this
    simp [binRender]
  | succ n ih =>
    intro z hz
    have hdiv : z / 2 < 2 ^ n := by
      have h2 : (2 : Nat) ^ (n + 1) = 2 ^ n * 2 := by ring
      omega
    show '1' ∈ binRender n (z / 2) ++ [if z % 2 = 1 then '1' else '0'] ↔ _
    rw [List.mem_append, ih (z / 2) hdiv]
    constructor
    · rintro (h | h)
      · omega
      · by_cases hp : z % 2 = 1
        · omega
        · simp [hp] at h
    · intro hz0
      by_cases hp : z % 2 = 1
      · right; simp [hp]
      · left; omega

/-- The numeric value of a binary character list, most significant first. -/
def binVal (l : List Char) : Nat :=
  l.foldl (fun acc c => 2 * acc + (if c = '1' then 1 else 0)) 0

theorem binToNat_eq_binVal (s : String) : binToNat s = binVal s.data := rfl

theorem binVal_append (l : List Char) (c : Char) :
    binVal (l ++ [c]) = 2 * binVal l + (if c = '1' then 1 else 0) := by
  show List.foldl _ 0 (l ++ [c]) = _
  rw [List.foldl_append]
  rfl

theorem binVal_lt (l : List Char) : binVal l < 2 ^ l.length := by
  induction l using List.reverseRecOn with
  | nil => show 0 < 1; omega
  | append_singleton l c ih =>
    rw [binVal_append]
    have hlen : (l ++ [c]).length = l.length + 1 := by simp
    rw [hlen]
    have h2 : (2 : Nat) ^ (l.length + 1) = 2 ^ l.length * 2 := by ring
    by_cases hc : c = '1' <;> simp [hc] <;> omega

theorem binRender_binVal (l : List Char) (hb : ∀ c ∈ l, c = '0' ∨ c = '1') :
    binRender l.length (binVal l) = l := by
  induction l using List.reverseRecOn with
  | nil => rfl
  | append_singleton l c ih =>
    have hlen : (l ++ [c]).length = l.length + 1 := by simp
    rw [hlen, binVal_append]
    show binRender l.length ((2 * binVal l + _) / 2) ++ _ = _
    have hbl : ∀ x ∈ l, x = '0' ∨ x = '1' := fun x hx => hb x (List.mem_append_left _ hx)
    by_cases hc : c = '1'
    · have hone : (if c = '1' then (1 : Nat) else 0) = 1 := by rw [if_pos hc]
      rw [hone]
      have hdiv : (2 * binVal l + 1) / 2 = binVal l := by omega
      have hmod : (2 * binVal l + 1) % 2 = 1 := by omega
      rw [hdiv, hmod, ih hbl]
      simp [hc]
    · have hc0 : c = '0' := by
        rcases hb c (List.mem_append_right _ (List.mem_singleton_self c)) with h | h
        · exact h
        · exact absurd h hc
      have hzero : (if c = '1' then (1 : Nat) else 0) = 0 := by rw [if_neg hc]
      rw [hzero]
      have hdiv : (2 * binVal l + 0) / 2 = binVal l := by omega
      have hmod : (2 * binVal l + 0) % 2 = 0 := by omega
      rw [hdiv, hmod, ih hbl]
      simp [hc0]

/-! ### Power-of-two test lemmas -/

theorem pow_of_and_pred_eq_zero (m : Nat) :
    0 < m → m &&& (m - 1) = 0 → ∃ k, m = 2 ^ k := by
  induction m using Nat.strong_induction_on with
  | _ m ih =>
    intro hpos hand
    rcases Nat.even_or_odd m with he | ho
    · obtain ⟨r, hr⟩ := he
      have hrpos : 0 < r := by omega
      have handr : r &&& (r - 1) = 0 := by
        apply Nat.eq_of_testBit_eq
        intro i
        rw [Nat.zero_testBit, Nat.testBit_and]
        have h1 : r.testBit i = m.testBit (i + 1) := by
          rw [Nat.testBit_add_one]
          congr 1
          omega
        have h2 : (r - 1).testBit i = (m - 1).testBit (i + 1) := by
          rw [Nat.testBit_add_one]
          congr 1
          omega
        rw [h1, h2, ← Nat.testBit_and, hand, Nat.zero_testBit]
      obtain ⟨k, hk⟩ := ih r (by omega) hrpos handr
      refine ⟨k + 1, ?_⟩
      rw [pow_succ]
      omega
    · obtain ⟨r, hr⟩ := ho
      by_cases hr0 : r = 0
      · exact ⟨0, by omega⟩
      · exfalso
        obtain ⟨i, hbit⟩ := Nat.ne_zero_implies_bit_true hr0
        have h1 : m.testBit (i + 1) = true := by
          rw [Nat.testBit_add_one]
          have hd : m / 2 = r := by omega
          rw [hd]; exact hbit
        have h2 : (m - 1).testBit (i + 1) = true := by
          rw [Nat.testBit_add_one]
          have hd : (m - 1) / 2 = r := by omega
          rw [hd]; exact hbit
        have h3 := Nat.testBit_and m (m - 1) (i + 1)
        rw [hand, Nat.zero_testBit, h1, h2] at h3
        simp at h3

theorem power_of_two_info_pow (n : Nat) :
    Simon.power_of_two_info (2 ^ n) = (true, some n) := by
  unfold Simon.power_of_two_info
  rw [if_neg (Nat.pos_iff_ne_zero.mp (Nat.two_pow_pos n)),
    if_pos (by rw [Nat.and_pow_two_sub_one_eq_mod, Nat.mod_self]),
    log2c_eq, Nat.log2_two_pow]

theorem power_of_two_info_not_pow (m : Nat) (h : ∀ k, m ≠ 2 ^ k) :
    (Simon.power_of_two_info m).1 = false := by
  unfold Simon.power_of_two_info
  by_cases h0 : m = 0
  · rw [if_pos h0]
  · rw [if_neg h0]
    by_cases hand : m &&& (m - 1) = 0
    · exfalso
      obtain ⟨k, hk⟩ := pow_of_and_pred_eq_zero m (Nat.pos_of_ne_zero h0) hand
      exact h k hk
    · rw [if_neg hand]

/-! ### List access helpers -/

theorem getD_map_range (l : List Nat) (d : Nat) :
    (List.range l.length).map (fun i => l.getD i d) = l := by
  apply List.ext_getElem
  · simp
  · intro i h1 h2
    simp only [List.getElem_map, List.getElem_range]
    rw [List.getD_eq_getElem?_getD, List.getElem?_eq_getElem h2]
    rfl

theorem getD_set_self (l : List Nat) (i : Nat) (a d : Nat) (h : i < l.length) :
    (l.set i a).getD i d = a := by
  rw [List.getD_eq_getElem?_getD, List.getElem?_set_self (by simpa using h)]
  rfl

theorem getD_set_ne (l : List Nat) (i j : Nat) (a d : Nat) (h : i ≠ j) :
    (l.set i a).getD j d = l.getD j d := by
  rw [List.getD_eq_getElem?_getD, List.getElem?_set_ne h, ← List.getD_eq_getElem?_getD]

theorem getD_map_bne (l : List Nat) (i : Nat) (h : i < l.length) :
    (l.map (fun x => x != 0)).getD i false = (l.getD i 0 != 0) := by
  have h' : i < (l.map (fun x => x != 0)).length := by simpa using h
  rw [List.getD_eq_getElem?_getD, List.getElem?_eq_getElem h',
    List.getD_eq_getElem?_getD, List.getElem?_eq_getElem h]
  simp

theorem dedup_length_lt_of_dup (l : List Nat) (i j : Nat) (hi : i < l.length)
    (hj : j < l.length) (hij : i ≠ j) (heq : l.getD i 0 = l.getD j 0) :
    l.dedup.length < l.length := by
  have hsub := List.dedup_sublist l
  have hle := hsub.length_le
  rcases Nat.lt_or_ge l.dedup.length l.length with h | h
  · exact h
  · exfalso
    have hlen : l.dedup.length = l.length := by omega
    have heqd : l.dedup = l := hsub.eq_of_length hlen
    have hnd : l.Nodup := by rw [← heqd]; exact List.nodup_dedup l
    rw [List.getD_eq_getElem?_getD, List.getElem?_eq_getElem hi,
      List.getD_eq_getElem?_getD, List.getElem?_eq_getElem hj] at heq
    have := (List.Nodup.get_inj_iff hnd (i := ⟨i, hi⟩) (j := ⟨j, hj⟩)).mp (by simpa using heq)
    simp at this
    exact hij this

/-! ### Inverse-map (`fmap`) characterization -/

namespace Simon

/-- The keys of the inverse map, in insertion order. -/
def fmapKeys (m : List (Nat × List Nat)) : List Nat := m.map Prod.fst

theorem keys_insertEntry (m : List (Nat × List Nat)) (y s : Nat) :
    fmapKeys (insertEntry m y s) =
      if y ∈ fmapKeys m then fmapKeys m else fmapKeys m ++ [y] := by
  induction m with
  | nil => simp [insertEntry, fmapKeys]
  | cons p rest ih =>
    obtain ⟨k, g⟩ := p
    by_cases hk : k = y
    · subst hk
      rw [insertEntry, if_pos rfl]
      have hmem : k ∈ fmapKeys ((k, g) :: rest) := by simp [fmapKeys]
      rw [if_pos hmem]
      rfl
    · rw [insertEntry, if_neg hk]
      have hkeys : fmapKeys ((k, g) :: insertEntry rest y s) =
          k :: fmapKeys (insertEntry rest y s) := rfl
      have hkeys2 : fmapKeys ((k, g) :: rest) = k :: fmapKeys rest := rfl
      rw [hkeys, ih, hkeys2]
      by_cases hmem : y ∈ fmapKeys rest
      · rw [if_pos hmem, if_pos (by simp [hmem])]
      · rw [if_neg hmem, if_neg (by simp [hmem, Ne.symm hk])]
        rfl

theorem mem_insertEntry (m : List (Nat × List Nat)) (y s : Nat)
    (hnd : (fmapKeys m).Nodup) (p : Nat × List Nat) (hp : p ∈ insertEntry m y s) :
    (p.1 ≠ y ∧ p ∈ m) ∨
    (p.1 = y ∧ ((y ∉ fmapKeys m ∧ p.2 = [s]) ∨ (∃ g, (y, g) ∈ m ∧ p.2 = g ++ [s]))) := by
  induction m with
  | nil =>
    simp [insertEntry] at hp
    subst hp
    right
    exact ⟨rfl, Or.inl ⟨by simp [fmapKeys], rfl⟩⟩
  | cons q rest ih =>
    obtain ⟨k, g⟩ := q
    have hndk : k ∉ fmapKeys rest := by
      have : fmapKeys ((k, g) :: rest) = k :: fmapKeys rest := rfl
      rw [this] at hnd
      exact (List.nodup_cons.mp hnd).1
    have hndrest : (fmapKeys rest).Nodup := by
      have : fmapKeys ((k, g) :: rest) = k :: fmapKeys rest := rfl
      rw [this] at hnd
      exact (List.nodup_cons.mp hnd).2
    by_cases hk : k = y
    · subst hk
      rw [insertEntry, if_pos rfl] at hp
      rcases List.mem_cons.mp hp with hph | hpt
      · subst hph
        right
        exact ⟨rfl, Or.inr ⟨g, by simp, rfl⟩⟩
      · left
        constructor
        · intro hpy
          apply hndk
          have : p.1 ∈ fmapKeys rest := List.mem_map_of_mem Prod.fst hpt
          rwa [hpy] at this
        · exact List.mem_cons_of_mem _ hpt
    · rw [insertEntry, if_neg hk] at hp
      rcases List.mem_cons.mp hp with hph | hpt
      · subst hph
        exact Or.inl ⟨hk, List.mem_cons_self _ _⟩
      · rcases ih hndrest hpt with ⟨hne, hmem⟩ | ⟨heq, hcase⟩
        · exact Or.inl ⟨hne, List.mem_cons_of_mem _ hmem⟩
        · right
          refine ⟨heq, ?_⟩
          rcases hcase with ⟨hnot, hval⟩ | ⟨g', hg', hval⟩
          · left
            refine ⟨?_, hval⟩
            intro hymem
            have : fmapKeys ((k, g) :: rest) = k :: fmapKeys rest := rfl
            rw [this] at hymem
            rcases List.mem_cons.mp hymem with h | h
            · exact hk h.symm
            · exact hnot h
          · exact Or.inr ⟨g', List.mem_cons_of_mem _ hg', hval⟩

/-- The `fmap` built by `brute_force_simon` after processing inputs
`0, ..., k-1`. -/
def fmapUpTo (farray : List Nat) (k : Nat) : List (Nat × List Nat) :=
  (List.range k).foldl (fun m s => insertEntry m (farray.getD s 0) s) []

theorem fmapUpTo_succ (f : List Nat) (k : Nat) :
    fmapUpTo f (k + 1) = insertEntry (fmapUpTo f k) (f.getD k 0) k := by
  unfold fmapUpTo
  rw [List.range_succ, List.foldl_append]
  rfl

theorem buildFmap_eq_upTo (bound : Nat) (f : List Nat) :
    buildFmap bound f = fmapUpTo f bound := rfl

theorem fmapUpTo_spec (f : List Nat) : ∀ k,
    (fmapKeys (fmapUpTo f k)).Nodup ∧
    (∀ y, y ∈ fmapKeys (fmapUpTo f k) ↔ ∃ i, i < k ∧ f.getD i 0 = y) ∧
    (∀ p ∈ fmapUpTo f k,
      p.2 = (List.range k).filter (fun s => f.getD s 0 = p.1)) := by
  intro k
  induction k with
  | zero =>
    refine ⟨by simp [fmapUpTo, fmapKeys], by simp [fmapUpTo, fmapKeys], by simp [fmapUpTo]⟩
  | succ k ih =>
    obtain ⟨ihnd, ihmem, ihgrp⟩ := ih
    have hkeys := keys_insertEntry (fmapUpTo f k) (f.getD k 0) k
    rw [← fmapUpTo_succ] at hkeys
    refine ⟨?_, ?_, ?_⟩
    · rw [hkeys]
      by_cases hmem : f.getD k 0 ∈ fmapKeys (fmapUpTo f k)
      · rw [if_pos hmem]; exact ihnd
      · rw [if_neg hmem]
        refine List.Nodup.append ihnd (List.nodup_singleton _) ?_
        intro a ha hb
        rcases List.mem_singleton.mp hb with rfl
        exact hmem ha
    · intro y
      rw [hkeys]
      by_cases hmem : f.getD k 0 ∈ fmapKeys (fmapUpTo f k)
      · rw [if_pos hmem, ihmem]
        constructor
        · rintro ⟨i, hik, hiy⟩
          exact ⟨i, by omega, hiy⟩
        · rintro ⟨i, hik, hiy⟩
          rcases Nat.lt_or_ge i k with h | h
          · exact ⟨i, h, hiy⟩
          · have : i = k := by omega
            subst this
            subst hiy
            exact (ihmem _).mp hmem
      · rw [if_neg hmem, List.mem_append, List.mem_singleton, ihmem]
        constructor
        · rintro (⟨i, hik, hiy⟩ | rfl)
          · exact ⟨i, by omega, hiy⟩
          · exact ⟨k, by omega, rfl⟩
        · rintro ⟨i, hik, hiy⟩
          rcases Nat.lt_or_ge i k with h | h
          · exact Or.inl ⟨i, h, hiy⟩
          · have : i = k := by omega
            subst this
            exact Or.inr hiy.symm
    · intro p hp
      rw [fmapUpTo_succ] at hp
      rw [List.range_succ, List.filter_append]
      rcases mem_insertEntry (fmapUpTo f k) (f.getD k 0) k ihnd p hp with
        ⟨hne, hmem⟩ | ⟨heq, hcase⟩
      · rw [ihgrp p hmem]
        have hzz : ¬(f.getD k 0 = p.1) := fun h => hne h.symm
        simp only [List.filter_singleton]
        have hd : decide (f.getD k 0 = p.1) = false := by simpa using hzz
        rw [hd, Bool.cond_false, List.append_nil]
      · rcases hcase with ⟨hnot, hval⟩ | ⟨g, hg, hval⟩
        · have hempty : (List.range k).filter (fun s => f.getD s 0 = p.1) = [] := by
            rw [List.filter_eq_nil_iff]
            intro a ha
            simp only [decide_eq_true_eq]
            intro hcontra
            apply hnot
            rw [ihmem]
            exact ⟨a, List.mem_range.mp ha, by rw [hcontra, heq]⟩
          rw [hval, hempty]
          simp [List.filter_singleton, heq]
        · have hgval : g = (List.range k).filter (fun s => f.getD s 0 = f.getD k 0) := by
            have := ihgrp (f.getD k 0, g) hg
            simpa using this
          rw [hval, hgval, heq]
          simp [List.filter_singleton]

theorem getD_mem_iff (f : List Nat) (y : Nat) :
    (∃ i, i < f.length ∧ f.getD i 0 = y) ↔ y ∈ f := by
  constructor
  · rintro ⟨i, hik, hiy⟩
    rw [List.getD_eq_getElem?_getD, List.getElem?_eq_getElem hik] at hiy
    rw [← hiy]
    exact List.getElem_mem hik
  · intro hy
    obtain ⟨i, hi, hval⟩ := List.mem_iff_getElem.mp hy
    refine ⟨i, hi, ?_⟩
    rw [List.getD_eq_getElem?_getD, List.getElem?_eq_getElem hi]
    exact hval

theorem fmap_length_eq_dedup (f : List Nat) :
    (fmapUpTo f f.length).length = f.dedup.length := by
  obtain ⟨hnd, hmem, -⟩ := fmapUpTo_spec f f.length
  have hkeyslen : (fmapKeys (fmapUpTo f f.length)).length =
      (fmapUpTo f f.length).length := by
    simp [fmapKeys]
  rw [← hkeyslen]
  have hiff : ∀ y, y ∈ fmapKeys (fmapUpTo f f.length) ↔ y ∈ f := by
    intro y
    rw [hmem y, ← getD_mem_iff f y]
  have h1 : (fmapKeys (fmapUpTo f f.length)).toFinset = f.dedup.toFinset := by
    ext a
    simp only [List.mem_toFinset]
    rw [hiff a, List.mem_dedup]
  rw [← List.toFinset_card_of_nodup hnd, h1,
    List.toFinset_card_of_nodup (List.nodup_dedup f)]

theorem fmapUpTo_ne_nil (f : List Nat) (k : Nat) (hk : 0 < k) :
    fmapUpTo f k ≠ [] := by
  obtain ⟨-, hmem, -⟩ := fmapUpTo_spec f k
  intro hcon
  have := (hmem (f.getD 0 0)).mpr ⟨0, hk, rfl⟩
  rw [hcon] at this
  simp [fmapKeys] at this

theorem checkGroups_none : ∀ (gs : List (List Nat)) (acc : List Nat),
    (∃ g ∈ gs, g.length ≠ 2) → checkGroups gs acc = none := by
  intro gs
  induction gs with
  | nil =>
    intro acc h
    simp at h
  | cons g rest ih =>
    intro acc h
    by_cases hl : g.length ≠ 2
    · rw [checkGroups, if_pos hl]
    · rw [checkGroups, if_neg hl]
      apply ih
      obtain ⟨g', hg', hglen⟩ := h
      rcases List.mem_cons.mp hg' with h1 | hmem
      · subst h1
        exact absurd hglen hl
      · exact ⟨g', hmem, hglen⟩

theorem checkGroups_all_two : ∀ (gs : List (List Nat)) (acc : List Nat),
    (∀ g ∈ gs, g.length = 2) →
    ∃ cs, checkGroups gs acc = some cs ∧
      (∀ c, c ∈ cs ↔ (c ∈ acc ∨ ∃ g ∈ gs, g.getD 0 0 ^^^ g.getD 1 0 = c)) ∧
      (acc.Nodup → cs.Nodup) := by
  intro gs
  induction gs with
  | nil =>
    intro acc _
    exact ⟨acc, rfl, by simp, fun h => h⟩
  | cons g rest ih =>
    intro acc h
    have hg2 : g.length = 2 := h g (List.mem_cons_self g rest)
    rw [checkGroups, if_neg (by omega)]
    by_cases hmem : (g.getD 0 0 ^^^ g.getD 1 0) ∈ acc
    · rw [if_pos hmem]
      obtain ⟨cs, heq, hmem2, hnd⟩ :=
        ih acc (fun g' hg' => h g' (List.mem_cons_of_mem _ hg'))
      refine ⟨cs, heq, ?_, hnd⟩
      intro c
      rw [hmem2 c]
      constructor
      · rintro (hc | ⟨g', hg', hv⟩)
        · exact Or.inl hc
        · exact Or.inr ⟨g', List.mem_cons_of_mem _ hg', hv⟩
      · rintro (hc | ⟨g', hg', hv⟩)
        · exact Or.inl hc
        · rcases List.mem_cons.mp hg' with h1 | h2
          · subst h1
            left
            rw [← hv]
            exact hmem
          · exact Or.inr ⟨g', h2, hv⟩
    · rw [if_neg hmem]
      obtain ⟨cs, heq, hmem2, hnd⟩ :=
        ih (acc ++ [g.getD 0 0 ^^^ g.getD 1 0])
          (fun g' hg' => h g' (List.mem_cons_of_mem _ hg'))
      refine ⟨cs, heq, ?_, ?_⟩
      · intro c
        rw [hmem2 c, List.mem_append, List.mem_singleton]
        constructor
        · rintro ((hc | hc) | ⟨g', hg', hv⟩)
          · exact Or.inl hc
          · exact Or.inr ⟨g, List.mem_cons_self _ _, hc.symm⟩
          · exact Or.inr ⟨g', List.mem_cons_of_mem _ hg', hv⟩
        · rintro (hc | ⟨g', hg', hv⟩)
          · exact Or.inl (Or.inl hc)
          · rcases List.mem_cons.mp hg' with h1 | h2
            · subst h1
              exact Or.inl (Or.inr hv.symm)
            · exact Or.inr ⟨g', h2, hv⟩
      · intro hndacc
        apply hnd
        refine List.Nodup.append hndacc (List.nodup_singleton _) ?_
        intro a ha hb
        rcases List.mem_singleton.mp hb with rfl
        exact hmem ha

theorem xor_cancel_left (x s : Nat) : x ^^^ (x ^^^ s) = s := by
  rw [← Nat.xor_assoc, Nat.xor_self, Nat.zero_xor]

theorem filter_range_pair (N a b : Nat) (hab : a < b) (hbN : b < N)
    (p : Nat → Bool) (hp : ∀ t, t < N → (p t = true ↔ (t = a ∨ t = b))) :
    (List.range N).filter p = [a, b] := by
  have key : ∀ M, M ≤ N → (List.range M).filter p =
      (if a < M then [a] else []) ++ (if b < M then [b] else []) := by
    intro M
    induction M with
    | zero =>
      intro _
      simp
    | succ M ih =>
      intro hMN
      have ihv := ih (by omega)
      have hsplit : (List.range (M + 1)).filter p =
          (List.range M).filter p ++ (if p M = true then [M] else []) := by
        rw [List.range_succ, List.filter_append]
        congr 1
        by_cases hpM : p M = true
        · rw [if_pos hpM]
          simp [List.filter_singleton, hpM]
        · have hpM' : p M = false := by
            revert hpM
            cases p M <;> simp
          rw [if_neg hpM]
          simp [List.filter_singleton, hpM']
      rw [hsplit, ihv]
      by_cases hMa : M = a
      · subst hMa
        rw [if_pos ((hp M (by omega)).mpr (Or.inl rfl))]
        have h1 : ¬M < M := by omega
        have h2 : ¬b < M := by omega
        have h3 : M < M + 1 := by omega
        have h4 : ¬b < M + 1 := by omega
        simp [h1, h2, h3, h4]
      · by_cases hMb : M = b
        · subst hMb
          rw [if_pos ((hp M (by omega)).mpr (Or.inr rfl))]
          have h1 : a < M := by omega
          have h2 : ¬M < M := by omega
          have h3 : a < M + 1 := by omega
          have h4 : M < M + 1 := by omega
          simp [h1, h2, h3, h4]
        · have hpM : p M = false := by
            by_cases ht : p M = true
            · exfalso
              rcases (hp M (by omega)).mp ht with h | h
              · exact hMa h
              · exact hMb h
            · revert ht
              cases p M <;> simp
          rw [hpM]
          by_cases haM : a < M
          · by_cases hbM : b < M
            · have h3 : a < M + 1 := by omega
              have h4 : b < M + 1 := by omega
              simp [haM, hbM, h3, h4]
            · have h3 : a < M + 1 := by omega
              have h4 : ¬b < M + 1 := by omega
              simp [haM, hbM, h3, h4]
          · have hbM : ¬b < M := by omega
            have h3 : ¬a < M + 1 := by omega
            have h4 : ¬b < M + 1 := by omega
            simp [haM, hbM, h3, h4]
  have hfin := key N (Nat.le_refl N)
  rw [hfin, if_pos (by omega), if_pos hbN]
  rfl

theorem brute_force_simon_eq (f : List Nat) (n : Nat) (hlen : f.length = 2 ^ n) :
    brute_force_simon f = secretFromFmap n f := by
  unfold brute_force_simon
  rw [hlen, power_of_two_info_pow, if_neg (by simp)]
  rfl

theorem simon_zeros_of_nodup (f : List Nat) (n : Nat)
    (hlen : f.length = 2 ^ n) (hnd : f.Nodup) :
    brute_force_simon f = ⟨List.replicate n '0'⟩ := by
  rw [brute_force_simon_eq f n hlen]
  unfold secretFromFmap
  rw [buildFmap_eq_upTo]
  have h1 : (fmapUpTo f (2 ^ n)).length = 2 ^ n := by
    rw [← hlen, fmap_length_eq_dedup, List.dedup_eq_self.mpr hnd, hlen]
  rw [if_pos h1]
  show String.mk (List.replicate (n - List.length []) '0' ++ []) = _
  rw [List.append_nil]
  simp

theorem secretFromFmap_not_shortcut (f : List Nat) (n : Nat)
    (hlen : f.length = 2 ^ n) (hdist : f.dedup.length < 2 ^ n) :
    brute_force_simon f =
      match checkGroups ((fmapUpTo f (2 ^ n)).map Prod.snd) [] with
      | none => "invalid f: more than two inputs map to the same output"
      | some candidates =>
        if candidates.length ≠ 1 then "invalid f: inconsistent secret strings found"
        else binStringZfill (candidates.headD 0) n := by
  rw [brute_force_simon_eq f n hlen]
  unfold secretFromFmap
  rw [buildFmap_eq_upTo]
  have hl2 : (fmapUpTo f (2 ^ n)).length = f.dedup.length := by
    rw [← hlen]
    exact fmap_length_eq_dedup f
  rw [if_neg (by omega)]

theorem match_some_helper (cs : List Nat) (n : Nat) :
    (match some cs with
      | none => "invalid f: more than two inputs map to the same output"
      | some candidates =>
        if candidates.length ≠ 1 then "invalid f: inconsistent secret strings found"
        else binStringZfill (candidates.headD 0) n) =
      (if cs.length ≠ 1 then "invalid f: inconsistent secret strings found"
        else binStringZfill (cs.headD 0) n) := rfl

theorem checkGroups_uniform (gs : List (List Nat)) (c : Nat) (hne : gs ≠ [])
    (h : ∀ g ∈ gs, g.length = 2 ∧ g.getD 0 0 ^^^ g.getD 1 0 = c) :
    checkGroups gs [] = some [c] := by
  obtain ⟨cs, hcs, hmem, hnd⟩ := checkGroups_all_two gs [] (fun g hg => (h g hg).1)
  rw [hcs]
  congr 1
  have hmemc : ∀ x, x ∈ cs ↔ x = c := by
    intro x
    rw [hmem x]
    simp only [List.not_mem_nil, false_or]
    constructor
    · rintro ⟨g, hg, hv⟩
      rw [← hv, (h g hg).2]
    · intro hx
      subst hx
      obtain ⟨g0, hg0⟩ := List.exists_mem_of_ne_nil _ hne
      exact ⟨g0, hg0, (h g0 hg0).2⟩
  have hndcs := hnd List.nodup_nil
  cases cs with
  | nil =>
    exfalso
    have := (hmemc c).mpr rfl
    simp at this
  | cons x rest =>
    have hx : x = c := (hmemc x).mp (List.mem_cons_self _ _)
    subst hx
    cases rest with
    | nil => rfl
    | cons x2 r2 =>
      exfalso
      have h2 : x2 = x := (hmemc x2).mp (by simp)
      have hnodup := List.nodup_cons.mp hndcs
      apply hnodup.1
      rw [← h2]
      exact List.mem_cons_self _ _

/-- The preimage group of output `y` in a table of domain size `2^n`: the
inputs in increasing order whose entry equals `y`. -/
def preimage (n : Nat) (f : List Nat) (y : Nat) : List Nat :=
  (List.range (2 ^ n)).filter (fun t => f.getD t 0 = y)

/-- The XOR candidate `a XOR b` computed from the (2-element) preimage group
of `y`. -/
def xorCand (n : Nat) (f : List Nat) (y : Nat) : Nat :=
  (preimage n f y).getD 0 0 ^^^ (preimage n f y).getD 1 0

theorem fmap_groups_iff_preimage (f : List Nat) (n : Nat) (hlen : f.length = 2 ^ n) :
    ∀ g, g ∈ (fmapUpTo f (2 ^ n)).map Prod.snd ↔ ∃ y ∈ f, g = preimage n f y := by
  intro g
  obtain ⟨hnd, hmem, hgrp⟩ := fmapUpTo_spec f (2 ^ n)
  constructor
  · intro hg
    obtain ⟨p, hp, hpg⟩ := List.mem_map.mp hg
    have hkey : p.1 ∈ fmapKeys (fmapUpTo f (2 ^ n)) :=
      List.mem_map_of_mem Prod.fst hp
    have hyin : p.1 ∈ f := by
      rw [← getD_mem_iff f p.1]
      obtain ⟨i, hi, hv⟩ := (hmem p.1).mp hkey
      exact ⟨i, by omega, hv⟩
    exact ⟨p.1, hyin, by rw [← hpg, hgrp p hp]; rfl⟩
  · rintro ⟨y, hy, rfl⟩
    have hkey : y ∈ fmapKeys (fmapUpTo f (2 ^ n)) := by
      rw [hmem y]
      obtain ⟨i, hi, hv⟩ := (getD_mem_iff f y).mpr hy
      exact ⟨i, by omega, hv⟩
    obtain ⟨p, hp, hpy⟩ := List.mem_map.mp hkey
    have hval : p.2 = preimage n f y := by
      rw [hgrp p hp, hpy]
      rfl
    rw [← hval]
    exact List.mem_map_of_mem Prod.snd hp

theorem brute_force_simon_paired (f : List Nat) (n sint : Nat)
    (hlen : f.length = 2 ^ n) (hs0 : sint ≠ 0) (hslt : sint < 2 ^ n)
    (hpair : ∀ i, i < 2 ^ n → ∀ j, j < 2 ^ n →
      (f.getD i 0 = f.getD j 0 ↔ (j = i ∨ j = i ^^^ sint))) :
    brute_force_simon f = binStringZfill sint n := by
  have hpow : 0 < 2 ^ n := Nat.two_pow_pos n
  have h0s : f.getD 0 0 = f.getD sint 0 :=
    (hpair 0 hpow sint hslt).mpr (Or.inr (Nat.zero_xor sint).symm)
  have hdup : f.dedup.length < 2 ^ n := by
    have := dedup_length_lt_of_dup f 0 sint (by omega) (by omega)
      (fun h => hs0 h.symm) h0s
    omega
  rw [secretFromFmap_not_shortcut f n hlen hdup]
  obtain ⟨hnd, hmem, hgrp⟩ := fmapUpTo_spec f (2 ^ n)
  have hgroups : ∀ g ∈ (fmapUpTo f (2 ^ n)).map Prod.snd,
      g.length = 2 ∧ g.getD 0 0 ^^^ g.getD 1 0 = sint := by
    intro g hg
    obtain ⟨p, hp, hpg⟩ := List.mem_map.mp hg
    have hkey : p.1 ∈ fmapKeys (fmapUpTo f (2 ^ n)) :=
      List.mem_map_of_mem Prod.fst hp
    obtain ⟨i0, hi0, hival⟩ := (hmem p.1).mp hkey
    have hfilter := hgrp p hp
    have hxlt : i0 ^^^ sint < 2 ^ n := Nat.xor_lt_two_pow hi0 hslt
    have hxne : i0 ≠ i0 ^^^ sint := by
      intro hcontra
      apply hs0
      have hcl := xor_cancel_left i0 sint
      rw [← hcontra, Nat.xor_self] at hcl
      exact hcl.symm
    have hcond : ∀ t, t < 2 ^ n →
        ((fun s => decide (f.getD s 0 = p.1)) t = true ↔
          (t = i0 ∨ t = i0 ^^^ sint)) := by
      intro t ht
      simp only [decide_eq_true_eq]
      rw [← hival]
      constructor
      · intro hfeq
        exact (hpair i0 hi0 t ht).mp hfeq.symm
      · intro hor
        exact ((hpair i0 hi0 t ht).mpr hor).symm
    rcases Nat.lt_or_ge i0 (i0 ^^^ sint) with hlt | hge
    · have hfil : (List.range (2 ^ n)).filter (fun s => decide (f.getD s 0 = p.1)) =
          [i0, i0 ^^^ sint] :=
        filter_range_pair (2 ^ n) i0 (i0 ^^^ sint) hlt hxlt _ hcond
      rw [← hpg, hfilter, hfil]
      exact ⟨rfl, xor_cancel_left i0 sint⟩
    · have hgt : i0 ^^^ sint < i0 := by omega
      have hcond' : ∀ t, t < 2 ^ n →
          ((fun s => decide (f.getD s 0 = p.1)) t = true ↔
            (t = i0 ^^^ sint ∨ t = i0)) := by
        intro t ht
        rw [hcond t ht]
        exact Or.comm
      have hfil : (List.range (2 ^ n)).filter (fun s => decide (f.getD s 0 = p.1)) =
          [i0 ^^^ sint, i0] :=
        filter_range_pair (2 ^ n) (i0 ^^^ sint) i0 hgt hi0 _ hcond'
      rw [← hpg, hfilter, hfil]
      refine ⟨rfl, ?_⟩
      show (i0 ^^^ sint) ^^^ i0 = sint
      rw [Nat.xor_comm]
      exact xor_cancel_left i0 sint
  have hnemp : (fmapUpTo f (2 ^ n)).map Prod.snd ≠ [] := by
    intro hcon
    apply fmapUpTo_ne_nil f (2 ^ n) hpow
    exact List.map_eq_nil_iff.mp hcon
  rw [checkGroups_uniform _ sint hnemp hgroups, match_some_helper, if_neg (by simp)]
  rfl

/-- The value popped at iteration `t` of the generator loop: element
`length - 1 - t` of the shuffled codomain list. -/
def popVal (mfield : List Nat) (t : Nat) : Nat :=
  mfield.getD (mfield.length - 1 - t) 0

theorem genState_invariant (sint : Nat) (mfield : List Nat) (N : Nat)
    (hsle : N ≤ mfield.length) (hsx : ∀ j, j < N → j ^^^ sint < N) :
    ∀ k, k ≤ N →
      ((List.range k).foldl (genStep sint) (mfield, List.replicate N 0)).1 =
        mfield.take (mfield.length - k) ∧
      ((List.range k).foldl (genStep sint) (mfield, List.replicate N 0)).2.length = N ∧
      (∀ j, j < N →
        ((List.range k).foldl (genStep sint) (mfield, List.replicate N 0)).2.getD j 0 =
          (if max j (j ^^^ sint) < k then popVal mfield (max j (j ^^^ sint))
           else if min j (j ^^^ sint) < k then popVal mfield (min j (j ^^^ sint))
           else 0)) := by
  intro k
  induction k with
  | zero =>
    intro _
    refine ⟨by simp, by simp, ?_⟩
    intro j hj
    rw [if_neg (Nat.not_lt_zero _), if_neg (Nat.not_lt_zero _)]
    rw [List.getD_eq_getElem?_getD]
    show (List.replicate N 0)[j]?.getD 0 = 0
    rw [List.getElem?_replicate]
    by_cases h : j < N
    · rw [if_pos h]
      rfl
    · rw [if_neg h]
      rfl
  | succ k ih =>
    intro hk1
    obtain ⟨ih1, ih2, ih3⟩ := ih (by omega)
    rw [List.range_succ, List.foldl_append]
    simp only [List.foldl_cons, List.foldl_nil]
    set st := (List.range k).foldl (genStep sint) (mfield, List.replicate N 0) with hst
    have hkN : k < N := by omega
    have hkL : k < mfield.length := by omega
    have hlast : st.1.getLast? = some (popVal mfield k) := by
      rw [ih1, List.getLast?_eq_getElem?]
      have hlen : (mfield.take (mfield.length - k)).length = mfield.length - k := by
        rw [List.length_take]
        omega
      rw [hlen, List.getElem?_take, if_pos (by omega)]
      have hidx : mfield.length - k - 1 = mfield.length - 1 - k := by omega
      rw [hidx]
      have hb : mfield.length - 1 - k < mfield.length := by omega
      rw [List.getElem?_eq_getElem hb]
      unfold popVal
      rw [List.getD_eq_getElem?_getD, List.getElem?_eq_getElem hb]
      rfl
    have hv : st.1.getLast?.getD 0 = popVal mfield k := by
      rw [hlast]
      rfl
    refine ⟨?_, ?_, ?_⟩
    · show st.1.dropLast = _
      rw [ih1, List.dropLast_eq_take, List.take_take]
      congr 1
      rw [List.length_take]
      omega
    · show ((st.2.set k _).set (k ^^^ sint) _).length = N
      rw [List.length_set, List.length_set]
      exact ih2
    · intro j hj
      show ((st.2.set k (st.1.getLast?.getD 0)).set (k ^^^ sint)
        (st.1.getLast?.getD 0)).getD j 0 = _
      rw [hv]
      have hlen1 : (st.2.set k (popVal mfield k)).length = N := by
        rw [List.length_set]
        exact ih2
      by_cases hj1 : j = k ^^^ sint
      · subst hj1
        rw [getD_set_self _ _ _ _ (by rw [hlen1]; exact hsx k hkN)]
        have hxx : (k ^^^ sint) ^^^ sint = k := by
          rw [Nat.xor_assoc, Nat.xor_self, Nat.xor_zero]
        by_cases hcmp : k ^^^ sint ≤ k
        · have hmax : max (k ^^^ sint) ((k ^^^ sint) ^^^ sint) = k := by
            rw [hxx]
            omega
          rw [hmax, if_pos (by omega)]
        · have hmax : max (k ^^^ sint) ((k ^^^ sint) ^^^ sint) = k ^^^ sint := by
            rw [hxx]
            omega
          have hmin : min (k ^^^ sint) ((k ^^^ sint) ^^^ sint) = k := by
            rw [hxx]
            omega
          rw [hmax, hmin, if_neg (by omega), if_pos (by omega)]
      · have hne1 : k ^^^ sint ≠ j := fun h => hj1 h.symm
        rw [getD_set_ne _ _ _ _ _ hne1]
        by_cases hj2 : j = k
        · subst hj2
          rw [getD_set_self _ _ _ _ (by rw [ih2]; exact hkN)]
          by_cases hcmp : j ^^^ sint ≤ j
          · have hmax : max j (j ^^^ sint) = j := by omega
            rw [hmax, if_pos (by omega)]
          · have hmax : max j (j ^^^ sint) = j ^^^ sint := by omega
            have hmin : min j (j ^^^ sint) = j := by omega
            rw [hmax, hmin, if_neg (by omega), if_pos (by omega)]
        · have hne2 : k ≠ j := fun h => hj2 h.symm
          rw [getD_set_ne _ _ _ _ _ hne2, ih3 j hj]
          have hjx : j ^^^ sint ≠ k := by
            intro h
            apply hj1
            rw [← h, Nat.xor_assoc, Nat.xor_self, Nat.xor_zero]
          have hmaxne : max j (j ^^^ sint) ≠ k := by
            rcases Nat.le_total j (j ^^^ sint) with h | h
            · rw [Nat.max_eq_right h]
              exact hjx
            · rw [Nat.max_eq_left h]
              exact hj2
          have hminne : min j (j ^^^ sint) ≠ k := by
            rcases Nat.le_total j (j ^^^ sint) with h | h
            · rw [Nat.min_eq_left h]
              exact hj2
            · rw [Nat.min_eq_right h]
              exact hjx
          by_cases hmc : max j (j ^^^ sint) < k
          · have hmc1 : max j (j ^^^ sint) < k + 1 := by omega
            rw [if_pos hmc, if_pos hmc1]
          · have hmc1 : ¬max j (j ^^^ sint) < k + 1 := by omega
            rw [if_neg hmc, if_neg hmc1]
            by_cases hmc2 : min j (j ^^^ sint) < k
            · have hmc3 : min j (j ^^^ sint) < k + 1 := by omega
              rw [if_pos hmc2, if_pos hmc3]
            · have hmc3 : ¬min j (j ^^^ sint) < k + 1 := by omega
              rw [if_neg hmc2, if_neg hmc3]

theorem generate_f_getD (nbits mbits : Nat) (s : String) (mfield : List Nat)
    (hNL : 2 ^ nbits ≤ mfield.length) (hs : binToNat s < 2 ^ nbits) :
    (generate nbits mbits s mfield).f.length = 2 ^ nbits ∧
    ∀ j, j < 2 ^ nbits →
      (generate nbits mbits s mfield).f.getD j 0 =
        popVal mfield (max j (j ^^^ binToNat s)) := by
  have hsx : ∀ j, j < 2 ^ nbits → j ^^^ binToNat s < 2 ^ nbits :=
    fun j hj => Nat.xor_lt_two_pow hj hs
  obtain ⟨-, h2, h3⟩ := genState_invariant (binToNat s) mfield (2 ^ nbits) hNL hsx
    (2 ^ nbits) (Nat.le_refl _)
  constructor
  · exact h2
  · intro j hj
    show ((List.range (2 ^ nbits)).foldl (genStep (binToNat s))
      (mfield, List.replicate (2 ^ nbits) 0)).2.getD j 0 = _
    rw [h3 j hj]
    have hmax : max j (j ^^^ binToNat s) < 2 ^ nbits := by
      have := hsx j hj
      omega
    rw [if_pos hmax]

theorem popVal_inj (mfield : List Nat) (hnd : mfield.Nodup) (t t' : Nat)
    (ht : t < mfield.length) (ht' : t' < mfield.length) (hne : t ≠ t') :
    popVal mfield t ≠ popVal mfield t' := by
  unfold popVal
  have h1 : mfield.length - 1 - t < mfield.length := by omega
  have h2 : mfield.length - 1 - t' < mfield.length := by omega
  rw [List.getD_eq_getElem?_getD, List.getElem?_eq_getElem h1,
    List.getD_eq_getElem?_getD, List.getElem?_eq_getElem h2]
  intro hcon
  have hinj := (List.Nodup.get_inj_iff hnd (i := ⟨_, h1⟩) (j := ⟨_, h2⟩)).mp
    (by simpa using hcon)
  simp only [Fin.mk.injEq] at hinj
  omega

theorem generate_pairing (nbits mbits : Nat) (s : String) (mfield : List Nat)
    (hNL : 2 ^ nbits ≤ mfield.length) (hs : binToNat s < 2 ^ nbits)
    (hnd : mfield.Nodup) :
    ∀ i, i < 2 ^ nbits → ∀ j, j < 2 ^ nbits →
      ((generate nbits mbits s mfield).f.getD i 0 =
        (generate nbits mbits s mfield).f.getD j 0 ↔
       (j = i ∨ j = i ^^^ binToNat s)) := by
  obtain ⟨hlen, hget⟩ := generate_f_getD nbits mbits s mfield hNL hs
  intro i hi j hj
  have hxi : i ^^^ binToNat s < 2 ^ nbits := Nat.xor_lt_two_pow hi hs
  have hxj : j ^^^ binToNat s < 2 ^ nbits := Nat.xor_lt_two_pow hj hs
  rw [hget i hi, hget j hj]
  have hmi : max i (i ^^^ binToNat s) < 2 ^ nbits := by omega
  have hmj : max j (j ^^^ binToNat s) < 2 ^ nbits := by omega
  constructor
  · intro heq
    have hmeq : max i (i ^^^ binToNat s) = max j (j ^^^ binToNat s) := by
      by_contra hneq
      exact popVal_inj mfield hnd _ _ (by omega) (by omega) hneq heq
    have hcli : (i ^^^ binToNat s) ^^^ binToNat s = i := by
      rw [Nat.xor_assoc, Nat.xor_self, Nat.xor_zero]
    have hclj : (j ^^^ binToNat s) ^^^ binToNat s = j := by
      rw [Nat.xor_assoc, Nat.xor_self, Nat.xor_zero]
    rcases Nat.le_total i (i ^^^ binToNat s) with h1 | h1 <;>
      rcases Nat.le_total j (j ^^^ binToNat s) with h2 | h2
    · rw [Nat.max_eq_right h1, Nat.max_eq_right h2] at hmeq
      left
      rw [← hclj, ← hmeq, hcli]
    · rw [Nat.max_eq_right h1, Nat.max_eq_left h2] at hmeq
      right
      exact hmeq.symm
    · rw [Nat.max_eq_left h1, Nat.max_eq_right h2] at hmeq
      right
      rw [hmeq, hclj]
    · rw [Nat.max_eq_left h1, Nat.max_eq_left h2] at hmeq
      left
      exact hmeq.symm
  · intro hor
    rcases hor with rfl | rfl
    · rfl
    · congr 1
      have hcli : (i ^^^ binToNat s) ^^^ binToNat s = i := by
        rw [Nat.xor_assoc, Nat.xor_self, Nat.xor_zero]
      rw [hcli]
      rcases Nat.le_total i (i ^^^ binToNat s) with h1 | h1
      · rw [Nat.max_eq_right h1, Nat.max_eq_left h1]
      · rw [Nat.max_eq_left h1, Nat.max_eq_right h1]

end Simon

/-! ### Population count lemmas -/

theorem bitcountAux_zero : ∀ w, bitcountAux w 0 = 0 := by
  intro w
  induction w with
  | zero => rfl
  | succ w ih =>
    show bitcountAux w (0 / 2) + 0 % 2 = 0
    rw [Nat.zero_div, ih]

theorem bitcountAux_congr : ∀ w w' n, n < 2 ^ w → n < 2 ^ w' →
    bitcountAux w n = bitcountAux w' n := by
  intro w
  induction w with
  | zero =>
    intro w' n hn _
    have h0 : n = 0 := by
      have : (2 : Nat) ^ 0 = 1 := rfl
      omega
    subst h0
    rw [bitcountAux_zero, bitcountAux_zero]
  | succ w ih =>
    intro w' n hn hn'
    cases w' with
    | zero =>
      have h0 : n = 0 := by
        have : (2 : Nat) ^ 0 = 1 := rfl
        omega
      subst h0
      rw [bitcountAux_zero, bitcountAux_zero]
    | succ w' =>
      show bitcountAux w (n / 2) + n % 2 = bitcountAux w' (n / 2) + n % 2
      congr 1
      have hdiv : n / 2 < 2 ^ w := by
        have h2 : (2 : Nat) ^ (w + 1) = 2 ^ w * 2 := by ring
        omega
      have hdiv' : n / 2 < 2 ^ w' := by
        have h2 : (2 : Nat) ^ (w' + 1) = 2 ^ w' * 2 := by ring
        omega
      exact ih w' (n / 2) hdiv hdiv'

theorem bitcount_eq (n : Nat) (h : 0 < n) :
    bitcount n = bitcount (n / 2) + n % 2 := by
  unfold bitcount
  obtain ⟨k, rfl⟩ : ∃ k, n = k + 1 := ⟨n - 1, by omega⟩
  show bitcountAux k ((k + 1) / 2) + (k + 1) % 2 = _
  congr 1
  apply bitcountAux_congr
  · cases k with
    | zero => decide
    | succ k =>
      have hlt := Nat.lt_two_pow (k + 1)
      have : (k + 2) / 2 ≤ k + 1 := by omega
      omega
  · exact Nat.lt_two_pow _

theorem bitcount_two_pow (i : Nat) : bitcount (2 ^ i) = 1 := by
  induction i with
  | zero => rfl
  | succ i ih =>
    rw [bitcount_eq (2 ^ (i + 1)) (Nat.two_pow_pos _)]
    have h2 : 2 ^ (i + 1) = 2 ^ i * 2 := by ring
    have hdiv : 2 ^ (i + 1) / 2 = 2 ^ i := by omega
    have hmod : 2 ^ (i + 1) % 2 = 0 := by omega
    rw [hdiv, hmod, ih]

theorem bitcount_two_pow_add (n y : Nat) (hy : y < 2 ^ n) :
    bitcount (2 ^ n + y) = bitcount y + 1 := by
  induction n generalizing y with
  | zero =>
    have h0 : y = 0 := by
      have h1 : (2 : Nat) ^ 0 = 1 := rfl
      omega
    subst h0
    rfl
  | succ n ih =>
    by_cases hy0 : y = 0
    · subst hy0
      show bitcount (2 ^ (n + 1) + 0) = _
      rw [Nat.add_zero, bitcount_two_pow]
      rfl
    · have hpos : 0 < 2 ^ (n + 1) + y := by
        have := Nat.two_pow_pos (n + 1)
        omega
      rw [bitcount_eq _ hpos]
      have h2 : 2 ^ (n + 1) = 2 ^ n * 2 := by ring
      have hdiv : (2 ^ (n + 1) + y) / 2 = 2 ^ n + y / 2 := by omega
      have hmod : (2 ^ (n + 1) + y) % 2 = y % 2 := by omega
      have hylt : y / 2 < 2 ^ n := by omega
      rw [hdiv, hmod, ih (y / 2) hylt, bitcount_eq y (Nat.pos_of_ne_zero hy0)]
      omega

/-! ### Bernstein-Vazirani accumulator lemmas -/

theorem orFold_testBit (g : Nat → Bool) : ∀ nb j : Nat,
    ((List.range nb).foldl
      (fun s p => if g (1 <<< p) then s ||| (1 <<< p) else s) 0).testBit j =
      (decide (j < nb) && g (1 <<< j)) := by
  intro nb
  induction nb with
  | zero =>
    intro j
    simp
  | succ nb ih =>
    intro j
    rw [List.range_succ, List.foldl_append]
    simp only [List.foldl_cons, List.foldl_nil]
    have ht : (1 <<< nb).testBit j = decide (nb = j) := by
      rw [Nat.one_shiftLeft]
      exact Nat.testBit_two_pow
    by_cases hg : g (1 <<< nb)
    · rw [if_pos hg, Nat.testBit_or, ih j, ht]
      by_cases hj : j = nb
      · subst hj
        have h1 : ¬j < j := by omega
        have h2 : j < j + 1 := by omega
        simp [h1, h2, hg]
      · have h3 : decide (nb = j) = false := by simp [Ne.symm hj]
        rw [h3, Bool.or_false]
        by_cases hj2 : j < nb
        · have h4 : j < nb + 1 := by omega
          simp [hj2, h4]
        · have h4 : ¬j < nb + 1 := by omega
          simp [hj2, h4]
    · rw [if_neg hg, ih j]
      by_cases hj : j = nb
      · subst hj
        have h1 : ¬j < j := by omega
        have h2 : j < j + 1 := by omega
        simp [h1, h2, hg]
      · by_cases hj2 : j < nb
        · have h4 : j < nb + 1 := by omega
          simp [hj2, h4]
        · have h4 : ¬j < nb + 1 := by omega
          simp [hj2, h4]

theorem orFold_lt (g : Nat → Bool) (nb : Nat) :
    ((List.range nb).foldl
      (fun s p => if g (1 <<< p) then s ||| (1 <<< p) else s) 0) < 2 ^ nb := by
  apply Nat.lt_pow_two_of_testBit
  intro i hi
  rw [orFold_testBit]
  have h1 : ¬i < nb := by omega
  simp [h1]

theorem getD_map_range_lt (h : Nat → Nat) (N j : Nat) (hj : j < N) (d : Nat) :
    ((List.range N).map h).getD j d = h j := by
  rw [List.getD_eq_getElem?_getD, List.getElem?_map, List.getElem?_range hj]
  rfl

theorem bv_classical_solve_eq (n : Nat) (fdata : List Nat)
    (hlen : fdata.length = 2 ^ n) :
    ∃ s, BVClassical.solve n fdata = binStringZfill s n ∧ s < 2 ^ n ∧
      ∀ i, i < n → s.testBit i = (fdata.getD (2 ^ i) 0 != 0) := by
  set G : Nat → Bool := fun x =>
    if x ≥ (fdata.map (fun v => v != 0)).length then false
    else (fdata.map (fun v => v != 0)).getD x false with hG
  refine ⟨(List.range n).foldl (fun s p => if G (1 <<< p) then s ||| (1 <<< p) else s) 0,
    rfl, orFold_lt G n, ?_⟩
  intro i hi
  rw [orFold_testBit G n i]
  have hlt : decide (i < n) = true := by simp [hi]
  rw [hlt, Bool.true_and]
  have hpowlt : 2 ^ i < 2 ^ n := Nat.pow_lt_pow_right (by omega) hi
  have hple : ¬(1 <<< i ≥ (fdata.map (fun v => v != 0)).length) := by
    rw [Nat.one_shiftLeft, List.length_map, hlen]
    omega
  rw [hG]
  show (if (1 <<< i) ≥ (fdata.map (fun v => v != 0)).length then false
    else (fdata.map (fun v => v != 0)).getD (1 <<< i) false) = _
  rw [if_neg hple, Nat.one_shiftLeft]
  exact getD_map_bne fdata (2 ^ i) (by omega)

/-! ### Deutsch-Jozsa measurement lemmas -/

theorem and_high_left (n x z : Nat) (hz : z < 2 ^ n) :
    (2 ^ n + x) &&& z = x &&& z := by
  apply Nat.eq_of_testBit_eq
  intro i
  rw [Nat.testBit_and, Nat.testBit_and]
  by_cases hi : i < n
  · rw [Nat.testBit_two_pow_add_gt hi]
  · have hzb : z.testBit i = false :=
      Nat.testBit_lt_two_pow
        (Nat.lt_of_lt_of_le hz (Nat.pow_le_pow_right (by omega) (by omega)))
    rw [hzb, Bool.and_false, Bool.and_false]

theorem and_high_right (n x z : Nat) (hx : x < 2 ^ n) (hz : z < 2 ^ n) :
    x &&& (2 ^ n + z) = x &&& z := by
  rw [Nat.and_comm, and_high_left n z x hx, Nat.and_comm]

theorem and_high_both (n x z : Nat) (hx : x < 2 ^ n) (hz : z < 2 ^ n) :
    (2 ^ n + x) &&& (2 ^ n + z) = 2 ^ n + (x &&& z) := by
  apply Nat.eq_of_testBit_eq
  intro i
  rw [Nat.testBit_and]
  rcases Nat.lt_trichotomy i n with hi | hi | hi
  · rw [Nat.testBit_two_pow_add_gt hi, Nat.testBit_two_pow_add_gt hi,
      Nat.testBit_two_pow_add_gt hi, Nat.testBit_and]
  · subst hi
    rw [Nat.testBit_two_pow_add_eq, Nat.testBit_two_pow_add_eq,
      Nat.testBit_two_pow_add_eq, Nat.testBit_lt_two_pow hx,
      Nat.testBit_lt_two_pow hz,
      Nat.testBit_lt_two_pow (Nat.and_lt_two_pow x hz)]
    rfl
  · have hpow : (2 : Nat) ^ (i + 1) ≤ 2 ^ i * 2 := by
      have h2 : (2 : Nat) ^ (i + 1) = 2 ^ i * 2 := by ring
      omega
    have hni : (2 : Nat) ^ (n + 1) ≤ 2 ^ i := Nat.pow_le_pow_right (by omega) (by omega)
    have h2n : (2 : Nat) ^ (n + 1) = 2 ^ n * 2 := by ring
    have h1 : (2 ^ n + x).testBit i = false := Nat.testBit_lt_two_pow (by omega)
    have h3 : (2 ^ n + (x &&& z)).testBit i = false := by
      have hand : x &&& z < 2 ^ n := Nat.and_lt_two_pow x hz
      exact Nat.testBit_lt_two_pow (by omega)
    rw [h1, Bool.false_and, h3]

theorem sum_map_neg (l : List Nat) (g : Nat → Int) :
    (l.map (fun x => -(g x))).sum = -((l.map g).sum) := by
  induction l with
  | nil => simp
  | cons a t ih =>
    rw [List.map_cons, List.sum_cons, List.map_cons, List.sum_cons, ih, neg_add]

theorem sum_char_zero : ∀ n z, z < 2 ^ n → z ≠ 0 →
    ((List.range (2 ^ n)).map (fun x =>
      (if bitcount (x &&& z) % 2 = 1 then (-1 : Int) else 1))).sum = 0 := by
  intro n
  induction n with
  | zero =>
    intro z hz hz0
    exfalso
    have h1 : (2 : Nat) ^ 0 = 1 := rfl
    omega
  | succ n ih =>
    intro z hz hz0
    have hsplit : (2 : Nat) ^ (n + 1) = 2 ^ n + 2 ^ n := by ring
    rw [hsplit, List.range_add, List.map_append, List.sum_append, List.map_map]
    by_cases hzlt : z < 2 ^ n
    · have hmap2 : ∀ x ∈ List.range (2 ^ n),
          ((fun x => (if bitcount (x &&& z) % 2 = 1 then (-1 : Int) else 1)) ∘
            (fun y => 2 ^ n + y)) x =
          (fun x => (if bitcount (x &&& z) % 2 = 1 then (-1 : Int) else 1)) x := by
        intro x _
        show (if bitcount ((2 ^ n + x) &&& z) % 2 = 1 then (-1 : Int) else 1) = _
        rw [and_high_left n x z hzlt]
      rw [List.map_congr_left hmap2, ih z hzlt hz0]
      rfl
    · have hz'lt : z - 2 ^ n < 2 ^ n := by omega
      have hzeq : z = 2 ^ n + (z - 2 ^ n) := by omega
      have hcancel : ∀ x ∈ List.range (2 ^ n),
          ((fun x => (if bitcount (x &&& z) % 2 = 1 then (-1 : Int) else 1)) ∘
            (fun y => 2 ^ n + y)) x =
          -((fun x => (if bitcount (x &&& z) % 2 = 1 then (-1 : Int) else 1)) x) := by
        intro x hx
        have hxlt : x < 2 ^ n := List.mem_range.mp hx
        show (if bitcount ((2 ^ n + x) &&& z) % 2 = 1 then (-1 : Int) else 1) =
          -(if bitcount (x &&& z) % 2 = 1 then (-1 : Int) else 1)
        conv_lhs => rw [hzeq]
        conv_rhs => rw [hzeq]
        rw [and_high_both n x (z - 2 ^ n) hxlt hz'lt,
          and_high_right n x (z - 2 ^ n) hxlt hz'lt,
          bitcount_two_pow_add n (x &&& (z - 2 ^ n))
            (Nat.and_lt_two_pow x hz'lt)]
        by_cases hp : bitcount (x &&& (z - 2 ^ n)) % 2 = 1
        · have hp1 : ¬((bitcount (x &&& (z - 2 ^ n)) + 1) % 2 = 1) := by omega
          rw [if_neg hp1, if_pos hp]
          rfl
        · have hp1 : (bitcount (x &&& (z - 2 ^ n)) + 1) % 2 = 1 := by omega
          rw [if_pos hp1, if_neg hp]
      rw [List.map_congr_left hcancel, sum_map_neg]
      omega

theorem djAmp_const (n : Nat) (b : Bool) (z : Nat) (hz : z < 2 ^ n) (hz0 : z ≠ 0) :
    DJ.djAmp n (DJ.Oracle.const b).eval z = 0 := by
  have h1 : DJ.djAmp n (DJ.Oracle.const b).eval z =
      ((List.range (2 ^ n)).map (fun x => (if b then (-1 : Int) else 1) *
        (if bitcount (x &&& z) % 2 = 1 then (-1 : Int) else 1))).sum := rfl
  rw [h1, List.sum_map_mul_left, sum_char_zero n z hz hz0, mul_zero]

theorem sum_sign_eq_count (l : List Bool) :
    (l.map (fun b => if b then (-1 : Int) else 1)).sum =
      (l.length : Int) - 2 * (l.count true) := by
  induction l with
  | nil => simp
  | cons a t ih =>
    rw [List.map_cons, List.sum_cons, ih, List.length_cons, List.count_cons]
    by_cases ha : a = true
    · subst ha
      simp
      push_cast
      ring
    · have ha' : a = false := by
        revert ha
        cases a <;> simp
      subst ha'
      simp
      push_cast
      ring

theorem getD_map_range_any {α : Type} (l : List α) (d : α) :
    (List.range l.length).map (fun i => l.getD i d) = l := by
  apply List.ext_getElem
  · simp
  · intro i h1 h2
    simp only [List.getElem_map, List.getElem_range]
    rw [List.getD_eq_getElem?_getD, List.getElem?_eq_getElem h2]
    rfl

theorem djAmp_balanced_zero (n : Nat) (fbits : List Bool)
    (hlen : fbits.length = 2 ^ n) :
    DJ.djAmp n (DJ.Oracle.balanced fbits).eval 0 =
      (2 ^ n : Int) - 2 * (fbits.count true) := by
  have h1 : DJ.djAmp n (DJ.Oracle.balanced fbits).eval 0 =
      ((List.range (2 ^ n)).map
        (fun x => (if fbits.getD x false then (-1 : Int) else 1) *
          (if bitcount (x &&& 0) % 2 = 1 then (-1 : Int) else 1))).sum := rfl
  rw [h1]
  have h2 : ∀ x ∈ List.range (2 ^ n),
      (if fbits.getD x false then (-1 : Int) else 1) *
        (if bitcount (x &&& 0) % 2 = 1 then (-1 : Int) else 1) =
      (if fbits.getD x false then (-1 : Int) else 1) := by
    intro x _
    rw [Nat.and_zero]
    have h3 : (if bitcount 0 % 2 = 1 then (-1 : Int) else 1) = 1 := by decide
    rw [h3, mul_one]
  rw [List.map_congr_left h2]
  have h4 : (List.range (2 ^ n)).map (fun x => if fbits.getD x false then (-1 : Int) else 1) =
      fbits.map (fun b => if b then (-1 : Int) else 1) := by
    rw [← hlen]
    conv_rhs => rw [← getD_map_range_any fbits false]
    rw [List.map_map]
    rfl
  rw [h4, sum_sign_eq_count, hlen]
  push_cast
  ring

theorem decode_zero (n : Nat) : DJ.decode n 0 = "constant" := by
  unfold DJ.decode
  rw [if_neg]
  intro hmem
  have hdata : (binStringZfill 0 n).data = List.replicate (n - 1) '0' ++ ['0'] := rfl
  rw [hdata] at hmem
  rcases List.mem_append.mp hmem with h | h
  · exact absurd (List.eq_of_mem_replicate h) (by decide)
  · exact absurd (List.mem_singleton.mp h) (by decide)

theorem decode_pos (n z : Nat) (hz : z < 2 ^ n) (hz0 : z ≠ 0) :
    DJ.decode n z = "balanced" := by
  have hn : 1 ≤ n := by
    by_contra h
    have h0 : n = 0 := by omega
    subst h0
    have h1 : (2 : Nat) ^ 0 = 1 := rfl
    omega
  have hmem : '1' ∈ (binStringZfill z n).data := by
    rw [binStringZfill_eq_binRender z n hn hz]
    exact (mem_binRender_one n z hz).mpr hz0
  unfold DJ.decode
  rw [if_pos hmem]

theorem dj_solve_valid (n : Nat) (f : List Nat) (z : Nat)
    (hlen : f.length = 2 ^ n) :
    DJ.solve n f z = DJ.decode n z := by
  simp only [DJ.solve, List.length_map]
  rw [hlen, if_neg (by omega)]

theorem dj_constant_answer (n : Nat) (f : List Nat) (z : Nat)
    (hlen : f.length = 2 ^ n) (hz : z < 2 ^ n)
    (hcc : (f.map (fun x => x != 0)).count true = 0 ∨
      (f.map (fun x => x != 0)).count true = 2 ^ n)
    (hsupp : DJ.djAmp n (DJ.selectOracle (f.map (fun x => x != 0))).eval z ≠ 0) :
    DJ.solve n f z = "constant" := by
  have hfblen : (f.map (fun x => x != 0)).length = 2 ^ n := by
    rw [List.length_map, hlen]
  have hz0 : z = 0 := by
    by_contra hz0
    rcases hcc with hc | hc
    · have hsel : DJ.selectOracle (f.map (fun x => x != 0)) = .const false := by
        unfold DJ.selectOracle
        rw [if_pos hc]
      rw [hsel, djAmp_const n false z hz hz0] at hsupp
      exact hsupp rfl
    · have hc0 : (f.map (fun x => x != 0)).count true ≠ 0 := by
        have := Nat.two_pow_pos n
        omega
      have hsel : DJ.selectOracle (f.map (fun x => x != 0)) = .const true := by
        unfold DJ.selectOracle
        rw [if_neg hc0, if_pos (by omega)]
      rw [hsel, djAmp_const n true z hz hz0] at hsupp
      exact hsupp rfl
  subst hz0
  rw [dj_solve_valid n f 0 hlen, decode_zero]

theorem dj_balanced_of_half (n : Nat) (f : List Nat) (z : Nat)
    (hlen : f.length = 2 ^ n) (hz : z < 2 ^ n)
    (hhalf : 2 * (f.map (fun x => x != 0)).count true = 2 ^ n)
    (hsupp : DJ.djAmp n (DJ.selectOracle (f.map (fun x => x != 0))).eval z ≠ 0) :
    DJ.solve n f z = "balanced" := by
  have hfblen : (f.map (fun x => x != 0)).length = 2 ^ n := by
    rw [List.length_map, hlen]
  have hpow := Nat.two_pow_pos n
  have hc0 : (f.map (fun x => x != 0)).count true ≠ 0 := by omega
  have hcfull : (f.map (fun x => x != 0)).length ≠
      (f.map (fun x => x != 0)).count true := by omega
  have hsel : DJ.selectOracle (f.map (fun x => x != 0)) =
      .balanced (f.map (fun x => x != 0)) := by
    unfold DJ.selectOracle
    rw [if_neg hc0, if_neg hcfull]
  have hz0 : z ≠ 0 := by
    intro hzz
    subst hzz
    rw [hsel, djAmp_balanced_zero n _ hfblen] at hsupp
    apply hsupp
    have hcast := congrArg (fun t : Nat => (t : Int)) hhalf
    push_cast at hcast
    omega
  rw [dj_solve_valid n f z hlen, decode_pos n z hz hz0]

/-! ### Claim theorems -/

/-- C1: Simon round-trip: for every n in [1,5], every m ≥ n, every secret
binary string S of length n, and every outcome of the generator's random
shuffle of [0, 2^m) (any permutation `mfield` of that range), applying the
Simon solver `brute_force_simon` to the table produced by
`generate(n, m, S)` returns exactly S as a length-n binary string (including
S = all zeros, where the table is one-to-one). -/
theorem claim_C1_simon_round_trip (n m : Nat) (S : String) (mfield : List Nat)
    (hn1 : 1 ≤ n) (hn5 : n ≤ 5) (hnm : n ≤ m)
    (hSlen : S.data.length = n) (hSbin : IsBinStr S)
    (hperm : mfield.Perm (List.range (2 ^ m))) :
    Simon.brute_force_simon (Simon.generate n m S mfield).f = S := by
  have hmlen : mfield.length = 2 ^ m := by
    rw [hperm.length_eq, List.length_range]
  have hnd : mfield.Nodup := hperm.nodup_iff.mpr (List.nodup_range (2 ^ m))
  have hNL : 2 ^ n ≤ mfield.length := by
    rw [hmlen]
    exact Nat.pow_le_pow_right (by omega) hnm
  have hval : binToNat S < 2 ^ n := by
    rw [binToNat_eq_binVal]
    have hbv := binVal_lt S.data
    rw [hSlen] at hbv
    exact hbv
  obtain ⟨hflen, hfget⟩ := Simon.generate_f_getD n m S mfield hNL hval
  have hpair := Simon.generate_pairing n m S mfield hNL hval hnd
  by_cases hs0 : binToNat S = 0
  · have hfn : (Simon.generate n m S mfield).f.Nodup := by
      rw [List.nodup_iff_injective_get]
      intro a b hab
      have ha2 : a.1 < 2 ^ n := by rw [← hflen]; exact a.2
      have hb2 : b.1 < 2 ^ n := by rw [← hflen]; exact b.2
      have hgd : (Simon.generate n m S mfield).f.getD a.1 0 =
          (Simon.generate n m S mfield).f.getD b.1 0 := by
        rw [List.getD_eq_getElem?_getD, List.getElem?_eq_getElem a.2,
          List.getD_eq_getElem?_getD, List.getElem?_eq_getElem b.2]
        simpa using hab
      have hcons := (hpair a.1 ha2 b.1 hb2).mp hgd
      rw [hs0, Nat.xor_zero] at hcons
      rcases hcons with h | h <;> exact Fin.ext h.symm
    rw [Simon.simon_zeros_of_nodup _ n hflen hfn]
    have hrt := binRender_binVal S.data (fun c hc => hSbin c hc)
    rw [hSlen, ← binToNat_eq_binVal, hs0, binRender_zero] at hrt
    exact congrArg String.mk hrt
  · rw [Simon.brute_force_simon_paired _ n (binToNat S) hflen hs0 hval hpair,
      binStringZfill_eq_binRender _ n hn1 hval]
    have hrt := binRender_binVal S.data (fun c hc => hSbin c hc)
    rw [hSlen, ← binToNat_eq_binVal] at hrt
    exact congrArg String.mk hrt

/-- C1 witness: the round-trip theorem applied at the concrete instance
n = 1, m = 1, S = "1", shuffle outcome [1, 0]. -/
theorem claim_C1_witness :
    (1 ≤ 1 ∧ 1 ≤ 5 ∧ 1 ≤ 1 ∧ ("1" : String).data.length = 1 ∧ IsBinStr "1" ∧
      ([1, 0] : List Nat).Perm (List.range (2 ^ 1))) ∧
    Simon.brute_force_simon (Simon.generate 1 1 "1" [1, 0]).f = "1" :=
  ⟨⟨Nat.le_refl 1, by omega, Nat.le_refl 1, by decide, by decide, by decide⟩,
    claim_C1_simon_round_trip 1 1 "1" [1, 0] (Nat.le_refl 1) (by omega)
      (Nat.le_refl 1) (by decide) (by decide) (by decide)⟩

/-- C5: for every integer table of length 2^n in which all entries are
pairwise distinct (a one-to-one function), the Simon solver returns the
secret "0" repeated n times (the one-to-one shortcut). -/
theorem claim_C5_simon_one_to_one (n : Nat) (farray : List Nat)
    (hlen : farray.length = 2 ^ n) (hnd : farray.Nodup) :
    Simon.brute_force_simon farray = ⟨List.replicate n '0'⟩ :=
  Simon.simon_zeros_of_nodup farray n hlen hnd

/-- C5 witness: the identity table `entries[x] = x` of size 4 yields the
secret "00". -/
theorem claim_C5_witness :
    (([0, 1, 2, 3] : List Nat).length = 2 ^ 2 ∧ ([0, 1, 2, 3] : List Nat).Nodup) ∧
    Simon.brute_force_simon [0, 1, 2, 3] = ⟨List.replicate 2 '0'⟩ :=
  ⟨⟨by decide, by decide⟩,
    claim_C5_simon_one_to_one 2 [0, 1, 2, 3] (by decide) (by decide)⟩

/-- C4: for every power-of-two-length integer table whose number of distinct
output values is less than 2^n, the Simon solver fails with "more than two
inputs map to the same output" if any output value's preimage group has size
other than exactly 2; otherwise with "inconsistent secret strings found" if
the XOR candidates computed from the 2-element groups are not all equal; and
it returns a secret only when all groups have size 2 and exactly one distinct
candidate exists (third part: in that case it returns that candidate). -/
theorem claim_C4_simon_promise_violation (n : Nat) (farray : List Nat)
    (hlen : farray.length = 2 ^ n) (hdist : farray.dedup.length < 2 ^ n) :
    ((∃ y ∈ farray, (Simon.preimage n farray y).length ≠ 2) →
      Simon.brute_force_simon farray =
        "invalid f: more than two inputs map to the same output") ∧
    ((∀ y ∈ farray, (Simon.preimage n farray y).length = 2) →
      (∃ y1 ∈ farray, ∃ y2 ∈ farray,
        Simon.xorCand n farray y1 ≠ Simon.xorCand n farray y2) →
      Simon.brute_force_simon farray =
        "invalid f: inconsistent secret strings found") ∧
    (∀ c : Nat, (∀ y ∈ farray, (Simon.preimage n farray y).length = 2) →
      (∀ y ∈ farray, Simon.xorCand n farray y = c) →
      Simon.brute_force_simon farray = binStringZfill c n) := by
  have hmatch := Simon.secretFromFmap_not_shortcut farray n hlen hdist
  have hiff := Simon.fmap_groups_iff_preimage farray n hlen
  have hpow : 0 < 2 ^ n := Nat.two_pow_pos n
  have hne : (Simon.fmapUpTo farray (2 ^ n)).map Prod.snd ≠ [] := by
    intro hcon
    exact Simon.fmapUpTo_ne_nil farray (2 ^ n) hpow (List.map_eq_nil_iff.mp hcon)
  refine ⟨?_, ?_, ?_⟩
  · rintro ⟨y, hy, hylen⟩
    rw [hmatch, Simon.checkGroups_none _ [] ⟨Simon.preimage n farray y,
      (hiff _).mpr ⟨y, hy, rfl⟩, hylen⟩]
  · rintro hall ⟨y1, hy1, y2, hy2, hneq⟩
    obtain ⟨cs, hcs, hmem, hnd⟩ := Simon.checkGroups_all_two
      ((Simon.fmapUpTo farray (2 ^ n)).map Prod.snd) []
      (fun g hg => by
        obtain ⟨y, hy, rfl⟩ := (hiff g).mp hg
        exact hall y hy)
    rw [hmatch, hcs, Simon.match_some_helper]
    have hc1 : Simon.xorCand n farray y1 ∈ cs := by
      rw [hmem]
      right
      exact ⟨Simon.preimage n farray y1, (hiff _).mpr ⟨y1, hy1, rfl⟩, rfl⟩
    have hc2 : Simon.xorCand n farray y2 ∈ cs := by
      rw [hmem]
      right
      exact ⟨Simon.preimage n farray y2, (hiff _).mpr ⟨y2, hy2, rfl⟩, rfl⟩
    have hlen1 : cs.length ≠ 1 := by
      intro hcs1
      obtain ⟨c0, hc0⟩ := List.length_eq_one.mp hcs1
      rw [hc0, List.mem_singleton] at hc1 hc2
      exact hneq (hc1.trans hc2.symm)
    rw [if_pos hlen1]
  · intro c hall hcand
    have hgroups : ∀ g ∈ (Simon.fmapUpTo farray (2 ^ n)).map Prod.snd,
        g.length = 2 ∧ g.getD 0 0 ^^^ g.getD 1 0 = c := by
      intro g hg
      obtain ⟨y, hy, rfl⟩ := (hiff g).mp hg
      exact ⟨hall y hy, hcand y hy⟩
    rw [hmatch, Simon.checkGroups_uniform _ c hne hgroups,
      Simon.match_some_helper, if_neg (by simp)]
    rfl

/-- C4 witness: the three branches exercised at concrete tables: a 3-element
preimage group ([5,5,5,2]), inconsistent XOR candidates ([1,1,2,3,2,3,4,4]),
and a valid paired table ([5,5,6,6], secret 1 rendered as "01"). -/
theorem claim_C4_witness :
    (([5, 5, 5, 2] : List Nat).length = 2 ^ 2 ∧
      ([5, 5, 5, 2] : List Nat).dedup.length < 2 ^ 2 ∧
      (∃ y ∈ ([5, 5, 5, 2] : List Nat),
        (Simon.preimage 2 [5, 5, 5, 2] y).length ≠ 2) ∧
      Simon.brute_force_simon [5, 5, 5, 2] =
        "invalid f: more than two inputs map to the same output") ∧
    (([1, 1, 2, 3, 2, 3, 4, 4] : List Nat).length = 2 ^ 3 ∧
      ([1, 1, 2, 3, 2, 3, 4, 4] : List Nat).dedup.length < 2 ^ 3 ∧
      (∀ y ∈ ([1, 1, 2, 3, 2, 3, 4, 4] : List Nat),
        (Simon.preimage 3 [1, 1, 2, 3, 2, 3, 4, 4] y).length = 2) ∧
      (∃ y1 ∈ ([1, 1, 2, 3, 2, 3, 4, 4] : List Nat),
        ∃ y2 ∈ ([1, 1, 2, 3, 2, 3, 4, 4] : List Nat),
        Simon.xorCand 3 [1, 1, 2, 3, 2, 3, 4, 4] y1 ≠
          Simon.xorCand 3 [1, 1, 2, 3, 2, 3, 4, 4] y2) ∧
      Simon.brute_force_simon [1, 1, 2, 3, 2, 3, 4, 4] =
        "invalid f: inconsistent secret strings found") ∧
    (([5, 5, 6, 6] : List Nat).length = 2 ^ 2 ∧
      ([5, 5, 6, 6] : List Nat).dedup.length < 2 ^ 2 ∧
      (∀ y ∈ ([5, 5, 6, 6] : List Nat),
        (Simon.preimage 2 [5, 5, 6, 6] y).length = 2) ∧
      (∀ y ∈ ([5, 5, 6, 6] : List Nat), Simon.xorCand 2 [5, 5, 6, 6] y = 1) ∧
      Simon.brute_force_simon [5, 5, 6, 6] = binStringZfill 1 2) :=
  ⟨⟨by decide, by decide, by decide,
      (claim_C4_simon_promise_violation 2 [5, 5, 5, 2] (by decide) (by decide)).1
        (by decide)⟩,
    ⟨by decide, by decide, by decide, by decide,
      (claim_C4_simon_promise_violation 3 [1, 1, 2, 3, 2, 3, 4, 4] (by decide)
        (by decide)).2.1 (by decide) (by decide)⟩,
    ⟨by decide, by decide, by decide, by decide,
      (claim_C4_simon_promise_violation 2 [5, 5, 6, 6] (by decide)
        (by decide)).2.2 1 (by decide) (by decide)⟩⟩

/-- C6: for every 2-entry boolean table, both classical Deutsch solvers
return "constant" if and only if entries[0] = entries[1], and "balanced"
otherwise. -/
theorem claim_C6_deutsch (a b : Bool) :
    (DeutschClassical.solve [a, b] = some "constant" ↔ a = b) ∧
    (DeutschClassical.solve [a, b] = some "balanced" ↔ a ≠ b) ∧
    (DeutschClassicalB.solve [a, b] = some "constant" ↔ a = b) ∧
    (DeutschClassicalB.solve [a, b] = some "balanced" ↔ a ≠ b) := by
  cases a <;> cases b <;> decide

/-- C9 (amended): Simon rejects every non-power-of-two length with the shape
error string; the quantum-path Bernstein-Vazirani solver and the
Deutsch-Jozsa solver reject an explicit nbits that mismatches the table
length with their shape error string; but the classical Bernstein-Vazirani
solver performs no such validation and returns an answer string (here "01"
for nbits = 2 with a 2-entry table). -/
theorem claim_C9_shape_validation :
    (∀ farray : List Nat, (∀ k, farray.length ≠ 2 ^ k) →
      Simon.brute_force_simon farray =
        "length of function is not power of 2 " ++ toString farray.length) ∧
    (∀ nbits : Nat, ∀ f : List Nat, 2 ^ nbits ≠ f.length →
      BVQuantum.solve (.dict nbits f) =
        "invalid function length " ++ toString f.length ++ " != 2^nbits " ++
          toString (2 ^ nbits)) ∧
    (∀ nbits : Nat, ∀ f : List Nat, ∀ z : Nat, 2 ^ nbits ≠ f.length →
      DJ.solve nbits f z =
        "invalid function length " ++ toString f.length ++ " != 2^nbits " ++
          toString (2 ^ nbits)) ∧
    BVClassical.solve 2 [0, 1] = "01" := by
  refine ⟨?_, ?_, ?_, by decide⟩
  · intro farray h
    unfold Simon.brute_force_simon
    rw [if_pos (power_of_two_info_not_pow farray.length h)]
  · intro nbits f h
    simp only [BVQuantum.solve, List.length_map]
    rw [if_pos h]
  · intro nbits f z h
    simp only [DJ.solve, List.length_map]
    rw [if_pos h]

/-- C9 counterexample: the classical Bernstein-Vazirani solver, given an
explicit nbits = 2 with a table of length 2 ≠ 2^2, does not fail with a
shape error: it returns the answer string "01". -/
theorem claim_C9_counterexample :
    2 ^ 2 ≠ ([0, 1] : List Nat).length ∧ BVClassical.solve 2 [0, 1] = "01" := by
  decide

/-- C9 witness: the three validating solvers exercised at concrete mismatched
inputs. -/
theorem claim_C9_witness :
    ((∀ k, ([1, 2, 3] : List Nat).length ≠ 2 ^ k) ∧
      Simon.brute_force_simon [1, 2, 3] =
        "length of function is not power of 2 " ++ toString ([1, 2, 3] : List Nat).length) ∧
    (2 ^ 3 ≠ ([1, 3, 4, 6] : List Nat).length ∧
      BVQuantum.solve (.dict 3 [1, 3, 4, 6]) =
        "invalid function length " ++ toString ([1, 3, 4, 6] : List Nat).length ++
          " != 2^nbits " ++ toString (2 ^ 3)) ∧
    (2 ^ 3 ≠ ([1, 3, 4, 6] : List Nat).length ∧
      DJ.solve 3 [1, 3, 4, 6] 0 =
        "invalid function length " ++ toString ([1, 3, 4, 6] : List Nat).length ++
          " != 2^nbits " ++ toString (2 ^ 3)) := by
  have h3 : ∀ k, ([1, 2, 3] : List Nat).length ≠ 2 ^ k := by
    intro k
    match k with
    | 0 => decide
    | 1 => decide
    | k + 2 =>
      have h1 : 0 < 2 ^ k := Nat.two_pow_pos k
      have h2 : 2 ^ (k + 2) = 4 * 2 ^ k := by ring
      show 3 ≠ 2 ^ (k + 2)
      omega
  exact ⟨⟨h3, claim_C9_shape_validation.1 [1, 2, 3] h3⟩,
    ⟨by decide, claim_C9_shape_validation.2.1 3 [1, 3, 4, 6] (by decide)⟩,
    ⟨by decide, claim_C9_shape_validation.2.2.1 3 [1, 3, 4, 6] 0 (by decide)⟩⟩

/-- C10 (amended): the Simon solver and the classical Bernstein-Vazirani
solver return every result — errors included — as a value in the same string
return channel as a successful answer, and the Deutsch classical solver does
so on every table with at least 2 entries; but on a shorter table the
Deutsch solver's unguarded indexing raises (modelled as `none`) instead of
returning a value-level result. -/
theorem claim_C10_value_level_errors :
    (∀ data : List Bool, 2 ≤ data.length → ∃ r, DeutschClassical.solve data = some r) ∧
    (∀ farray : List Nat,
      Simon.brute_force_simon farray =
        "length of function is not power of 2 " ++ toString farray.length ∨
      Simon.brute_force_simon farray =
        "invalid f: more than two inputs map to the same output" ∨
      Simon.brute_force_simon farray =
        "invalid f: inconsistent secret strings found" ∨
      (∃ nb, Simon.brute_force_simon farray = ⟨zfill [] nb⟩) ∨
      (∃ c nb, Simon.brute_force_simon farray = binStringZfill c nb)) ∧
    (∀ nbits : Nat, ∀ fdata : List Nat,
      ∃ s, BVClassical.solve nbits fdata = binStringZfill s nbits) := by
  refine ⟨?_, ?_, ?_⟩
  · intro data h
    match data, h with
    | a :: b :: rest, _ =>
      refine ⟨if a = b then "constant" else "balanced", ?_⟩
      simp [DeutschClassical.solve]
  · intro farray
    unfold Simon.brute_force_simon
    split
    · left
      rfl
    · unfold Simon.secretFromFmap
      split
      · right; right; right; left
        exact ⟨_, rfl⟩
      · split
        · right; left
          rfl
        · split
          · right; right; left
            rfl
          · right; right; right; right
            exact ⟨_, _, rfl⟩
  · intro nbits fdata
    exact ⟨_, rfl⟩

/-- C10 counterexample: the Deutsch classical solver applied to an empty
table performs unguarded indexing `data[0]` and raises (modelled `none`): the
error is not returned in the answer channel. -/
theorem claim_C10_counterexample : DeutschClassical.solve [] = none := rfl

/-- C10 witness: the amended theorem at concrete inputs. -/
theorem claim_C10_witness :
    (2 ≤ ([true, false] : List Bool).length ∧
      ∃ r, DeutschClassical.solve [true, false] = some r) ∧
    (∃ s, BVClassical.solve 3 [0, 1, 0, 1, 1, 0, 1, 0] = binStringZfill s 3) :=
  ⟨⟨by decide, claim_C10_value_level_errors.1 [true, false] (by decide)⟩,
    claim_C10_value_level_errors.2.2 3 [0, 1, 0, 1, 1, 0, 1, 0]⟩

/-- C2 (amended): for every table of length 2^n with n ≥ 1, the classical
Bernstein-Vazirani solver returns a length-n string, most significant bit
first and left-zero-padded, whose character at position n-1-i is 1 exactly
when entries[2^i] is truthy; two tables agreeing on all power-of-two indices
get the same answer (non-unit-weight entries are never inspected).  For
n = 0 the solver returns the one-character string "0" instead of a length-0
string. -/
theorem claim_C2_bv_classical (n : Nat) (fdata : List Nat)
    (hn : 1 ≤ n) (hlen : fdata.length = 2 ^ n) :
    (BVClassical.solve n fdata).data.length = n ∧
    (∀ i, i < n → (BVClassical.solve n fdata).data.getD (n - 1 - i) ' ' =
      (if fdata.getD (2 ^ i) 0 != 0 then '1' else '0')) ∧
    (∀ gdata : List Nat, gdata.length = 2 ^ n →
      (∀ i, i < n → (gdata.getD (2 ^ i) 0 != 0) = (fdata.getD (2 ^ i) 0 != 0)) →
      BVClassical.solve n gdata = BVClassical.solve n fdata) ∧
    (∀ hdata : List Nat, BVClassical.solve 0 hdata = "0") := by
  obtain ⟨s, hsolve, hslt, hbits⟩ := bv_classical_solve_eq n fdata hlen
  have hrender : BVClassical.solve n fdata = ⟨binRender n s⟩ := by
    rw [hsolve]
    exact binStringZfill_eq_binRender s n hn hslt
  refine ⟨?_, ?_, ?_, ?_⟩
  · rw [hrender]
    exact binRender_length n s
  · intro i hi
    rw [hrender]
    show (binRender n s).getD (n - 1 - i) ' ' = _
    rw [binRender_getD n s i hi, hbits i hi]
  · intro gdata hglen hagree
    obtain ⟨t, hsolve2, htlt, hbits2⟩ := bv_classical_solve_eq n gdata hglen
    have hst : t = s := by
      apply Nat.eq_of_testBit_eq
      intro j
      by_cases hj : j < n
      · rw [hbits2 j hj, hbits j hj, hagree j hj]
      · have h2n : (2 : Nat) ^ n ≤ 2 ^ j := Nat.pow_le_pow_right (by omega) (by omega)
        rw [Nat.testBit_lt_two_pow (by omega), Nat.testBit_lt_two_pow (by omega)]
    rw [hsolve, hsolve2, hst]
  · intro hdata
    rfl

/-- C2 counterexample: at domainBits n = 0 (table [1] of length 2^0) the
solver returns "0", a one-character string, not the length-0 string the
claim's "length-n binary string" requires. -/
theorem claim_C2_counterexample :
    ([1] : List Nat).length = 2 ^ 0 ∧ BVClassical.solve 0 [1] = "0" ∧
      ("0" : String).data.length ≠ 0 := by
  decide

/-- C2 witness: the amended theorem at n = 3 on the repository's own test
vector, with an agreeing table differing only at non-power indices. -/
theorem claim_C2_witness :
    (1 ≤ 3 ∧ ([0, 1, 0, 1, 1, 0, 1, 0] : List Nat).length = 2 ^ 3) ∧
    (BVClassical.solve 3 [0, 1, 0, 1, 1, 0, 1, 0]).data.length = 3 ∧
    BVClassical.solve 3 [1, 1, 0, 7, 1, 0, 1, 0] =
      BVClassical.solve 3 [0, 1, 0, 1, 1, 0, 1, 0] :=
  ⟨⟨by omega, by decide⟩,
    (claim_C2_bv_classical 3 [0, 1, 0, 1, 1, 0, 1, 0] (by omega) (by decide)).1,
    (claim_C2_bv_classical 3 [0, 1, 0, 1, 1, 0, 1, 0] (by omega)
      (by decide)).2.2.1 [1, 1, 0, 7, 1, 0, 1, 0] (by decide) (by decide)⟩

/-- C7: Bernstein-Vazirani round-trip: for every n in [1,6] and every binary
secret S of length n, the generator returns exactly the true-index set
of x in [0, 2^n) with odd popcount(S AND x), and the classical
Bernstein-Vazirani solver applied to the boolean table entries[x] =
(x in that set) returns exactly S. -/
theorem claim_C7_bv_round_trip (n : Nat) (S : String)
    (hn1 : 1 ≤ n) (hn6 : n ≤ 6) (hSlen : S.data.length = n) (hSbin : IsBinStr S) :
    (∀ x, x ∈ (BVQuantum.generate n S).2.2 ↔
      (x < 2 ^ n ∧ bitcount (binToNat S &&& x) % 2 = 1)) ∧
    BVClassical.solve n ((List.range (2 ^ n)).map
      (fun x => if x ∈ (BVQuantum.generate n S).2.2 then 1 else 0)) = S := by
  have hmem : ∀ x, x ∈ (BVQuantum.generate n S).2.2 ↔
      (x < 2 ^ n ∧ bitcount (binToNat S &&& x) % 2 = 1) := by
    intro x
    show x ∈ (List.range (2 ^ n)).filter
      (fun i => bitcount (binToNat S &&& i) % 2 = 1) ↔ _
    rw [List.mem_filter, List.mem_range]
    simp
  refine ⟨hmem, ?_⟩
  set table := (List.range (2 ^ n)).map
    (fun x => if x ∈ (BVQuantum.generate n S).2.2 then 1 else 0) with htab
  have htlen : table.length = 2 ^ n := by
    rw [htab, List.length_map, List.length_range]
  obtain ⟨s, hsolve, hslt, hbits⟩ := bv_classical_solve_eq n table htlen
  have hsint : binToNat S < 2 ^ n := by
    rw [binToNat_eq_binVal]
    have h := binVal_lt S.data
    rw [hSlen] at h
    exact h
  have hparity : ∀ j, (bitcount (binToNat S &&& 2 ^ j) % 2 = 1) ↔
      (binToNat S).testBit j = true := by
    intro j
    rw [Nat.and_two_pow]
    by_cases hb : (binToNat S).testBit j = true
    · rw [hb]
      simp [bitcount_two_pow]
    · have hb' : (binToNat S).testBit j = false := by
        revert hb
        cases (binToNat S).testBit j <;> simp
      rw [hb']
      have h0 : Bool.toNat false * 2 ^ j = 0 := by simp
      rw [h0]
      show bitcountAux 0 0 % 2 = 1 ↔ false = true
      simp [bitcountAux]
  have hseq : s = binToNat S := by
    apply Nat.eq_of_testBit_eq
    intro j
    by_cases hj : j < n
    · rw [hbits j hj]
      have hp : 2 ^ j < 2 ^ n := Nat.pow_lt_pow_right (by omega) hj
      have hg : table.getD (2 ^ j) 0 =
          (if (2 ^ j) ∈ (BVQuantum.generate n S).2.2 then 1 else 0) := by
        rw [htab]
        exact getD_map_range_lt _ (2 ^ n) (2 ^ j) hp 0
      rw [hg]
      by_cases hmem2 : (2 ^ j) ∈ (BVQuantum.generate n S).2.2
      · have hpar := ((hmem (2 ^ j)).mp hmem2).2
        rw [if_pos hmem2, (hparity j).mp hpar]
        rfl
      · rw [if_neg hmem2]
        have hbit : (binToNat S).testBit j = false := by
          by_cases hb : (binToNat S).testBit j = true
          · exact absurd ((hmem (2 ^ j)).mpr ⟨hp, (hparity j).mpr hb⟩) hmem2
          · revert hb
            cases (binToNat S).testBit j <;> simp
        rw [hbit]
        rfl
    · have h2n : (2 : Nat) ^ n ≤ 2 ^ j := Nat.pow_le_pow_right (by omega) (by omega)
      rw [Nat.testBit_lt_two_pow (by omega), Nat.testBit_lt_two_pow (by omega)]
  rw [hsolve, hseq, binStringZfill_eq_binRender _ n hn1 hsint]
  have hrt := binRender_binVal S.data (fun c hc => hSbin c hc)
  rw [hSlen, ← binToNat_eq_binVal] at hrt
  exact congrArg String.mk hrt

/-- C7 witness: n = 3, S = "101": the generated true set is [1,3,4,6] and the
solver recovers "101" from the reconstructed table. -/
theorem claim_C7_witness :
    (1 ≤ 3 ∧ 3 ≤ 6 ∧ ("101" : String).data.length = 3 ∧ IsBinStr "101") ∧
    BVClassical.solve 3 ((List.range (2 ^ 3)).map
      (fun x => if x ∈ (BVQuantum.generate 3 "101").2.2 then 1 else 0)) = "101" :=
  ⟨⟨by omega, by omega, by decide, by decide⟩,
    (claim_C7_bv_round_trip 3 "101" (by omega) (by omega) (by decide)
      (by decide)).2⟩

/-- C3 (amended): for a table of length 2^n and any measurement outcome `z`
in the support of the compiled circuit's distribution: if the true-count is 0
or 2^n every possible outcome decodes to "constant"; if the true-count is
exactly half, every possible outcome decodes to "balanced"; and for any
true-count no validation error is raised — the answer is always "constant"
or "balanced".  (For true-counts strictly between 0 and 2^n that are not
exactly half, the answer depends on the measured outcome and can be
"constant"; see the counterexample.) -/
theorem claim_C3_deutsch_jozsa (n : Nat) (f : List Nat) (z : Nat)
    (hlen : f.length = 2 ^ n) (hz : z < 2 ^ n)
    (hsupp : DJ.djAmp n (DJ.selectOracle (f.map (fun x => x != 0))).eval z ≠ 0) :
    ((f.map (fun x => x != 0)).count true = 0 ∨
      (f.map (fun x => x != 0)).count true = 2 ^ n →
      DJ.solve n f z = "constant") ∧
    (2 * (f.map (fun x => x != 0)).count true = 2 ^ n →
      DJ.solve n f z = "balanced") ∧
    (DJ.solve n f z = "constant" ∨ DJ.solve n f z = "balanced") := by
  refine ⟨fun hcc => dj_constant_answer n f z hlen hz hcc hsupp,
    fun hhalf => dj_balanced_of_half n f z hlen hz hhalf hsupp, ?_⟩
  rw [dj_solve_valid n f z hlen]
  unfold DJ.decode
  by_cases hmem : '1' ∈ (binStringZfill z n).data
  · right
    rw [if_pos hmem]
  · left
    rw [if_neg hmem]

/-- C3 counterexample: the table [1,0,0,0,0,0,0,0] has true-count 1, strictly
between 0 and 2^3, yet the all-zeros outcome is in the support of the
compiled circuit's measurement distribution (amplitude sum 6 ≠ 0) and the
solver then answers "constant", not "balanced". -/
theorem claim_C3_counterexample :
    ([1, 0, 0, 0, 0, 0, 0, 0] : List Nat).length = 2 ^ 3 ∧
    0 < (([1, 0, 0, 0, 0, 0, 0, 0] : List Nat).map (fun x => x != 0)).count true ∧
    (([1, 0, 0, 0, 0, 0, 0, 0] : List Nat).map (fun x => x != 0)).count true < 2 ^ 3 ∧
    DJ.djAmp 3 (DJ.selectOracle
      (([1, 0, 0, 0, 0, 0, 0, 0] : List Nat).map (fun x => x != 0))).eval 0 ≠ 0 ∧
    DJ.solve 3 [1, 0, 0, 0, 0, 0, 0, 0] 0 = "constant" :=
  ⟨by decide, by decide, by decide, by decide, by decide⟩

/-- C3 witness: the amended theorem at an all-false table (outcome 0 forced,
"constant") and at the repository's balanced test vector (outcome 5,
"balanced"). -/
theorem claim_C3_witness :
    (([0, 0, 0, 0] : List Nat).length = 2 ^ 2 ∧ 0 < 2 ^ 2 ∧
      DJ.djAmp 2 (DJ.selectOracle
        (([0, 0, 0, 0] : List Nat).map (fun x => x != 0))).eval 0 ≠ 0 ∧
      DJ.solve 2 [0, 0, 0, 0] 0 = "constant") ∧
    (([0, 1, 0, 1, 1, 0, 1, 0] : List Nat).length = 2 ^ 3 ∧ 5 < 2 ^ 3 ∧
      DJ.djAmp 3 (DJ.selectOracle
        (([0, 1, 0, 1, 1, 0, 1, 0] : List Nat).map (fun x => x != 0))).eval 5 ≠ 0 ∧
      DJ.solve 3 [0, 1, 0, 1, 1, 0, 1, 0] 5 = "balanced") :=
  ⟨⟨by decide, by decide, by decide,
      (claim_C3_deutsch_jozsa 2 [0, 0, 0, 0] 0 (by decide) (by decide)
        (by decide)).1 (by decide)⟩,
    ⟨by decide, by decide, by decide,
      (claim_C3_deutsch_jozsa 3 [0, 1, 0, 1, 1, 0, 1, 0] 5 (by decide) (by decide)
        (by decide)).2.1 (by decide)⟩⟩

/-- Modelled from the spec: OracleTable construction from a set-of-true-indices
representation (spec section 3: `entries[x] = x in trueSet`); no function
under src/ builds a bit table from a true-index set — the solvers accept only
bit arrays. -/
def tableFromTrueSet (n : Nat) (trueSet : List Nat) : List Nat :=
  (List.range (2 ^ n)).map (fun x => if x ∈ trueSet then 1 else 0)

/-- C8: construction from a set-of-true-indices representation reconstructs
entries as entries[x] = (x in trueSet); for nbits = 3 and true set
[1,3,4,6], the quantum-path Bernstein-Vazirani solver on the reconstructed
table returns "101", and the Deutsch-Jozsa solver on the same table
(true-count 4, neither 0 nor 8) answers "balanced" for every possible
measurement outcome. -/
theorem claim_C8_true_index_encoding :
    (∀ n : Nat, ∀ ts : List Nat, ∀ x, x < 2 ^ n →
      ((tableFromTrueSet n ts).getD x 0 ≠ 0 ↔ x ∈ ts)) ∧
    BVQuantum.solve (.dict 3 (tableFromTrueSet 3 [1, 3, 4, 6])) = "101" ∧
    (∀ z, z < 2 ^ 3 →
      DJ.djAmp 3 (DJ.selectOracle
        ((tableFromTrueSet 3 [1, 3, 4, 6]).map (fun x => x != 0))).eval z ≠ 0 →
      DJ.solve 3 (tableFromTrueSet 3 [1, 3, 4, 6]) z = "balanced") := by
  refine ⟨?_, by decide, ?_⟩
  · intro n ts x hx
    unfold tableFromTrueSet
    rw [getD_map_range_lt _ (2 ^ n) x hx 0]
    by_cases hmem : x ∈ ts
    · rw [if_pos hmem]
      simp [hmem]
    · rw [if_neg hmem]
      simp [hmem]
  · intro z hz hsupp
    exact dj_balanced_of_half 3 (tableFromTrueSet 3 [1, 3, 4, 6]) z
      (by decide) hz (by decide) hsupp

/-- C8 witness: the reconstruction at x = 1 and x = 2, and the Deutsch-Jozsa
part at the (deterministic) support outcome z = 5. -/
theorem claim_C8_witness :
    (1 < 2 ^ 3 ∧ ((tableFromTrueSet 3 [1, 3, 4, 6]).getD 1 0 ≠ 0 ↔
      1 ∈ ([1, 3, 4, 6] : List Nat))) ∧
    (2 < 2 ^ 3 ∧ ((tableFromTrueSet 3 [1, 3, 4, 6]).getD 2 0 ≠ 0 ↔
      2 ∈ ([1, 3, 4, 6] : List Nat))) ∧
    (5 < 2 ^ 3 ∧
      DJ.djAmp 3 (DJ.selectOracle
        ((tableFromTrueSet 3 [1, 3, 4, 6]).map (fun x => x != 0))).eval 5 ≠ 0 ∧
      DJ.solve 3 (tableFromTrueSet 3 [1, 3, 4, 6]) 5 = "balanced") :=
  ⟨⟨by decide, claim_C8_true_index_encoding.1 3 [1, 3, 4, 6] 1 (by decide)⟩,
    ⟨by decide, claim_C8_true_index_encoding.1 3 [1, 3, 4, 6] 2 (by decide)⟩,
    ⟨by decide, by decide,
      claim_C8_true_index_encoding.2.2 5 (by decide) (by decide)⟩⟩

